import Mathlib

/-!
Shallow embedding of the fixed-size sliding-window solutions in this
repository (files under 滑动窗口与双指针), together with brute-force
specifications and equivalence proofs.

Conventions of the embedding:
* C++ `vector<int>` / `string` become `List Int` / `List Char`.
* Every `int` operation whose value can leave the 32-bit range — the
  running sums of 1343, 1423 and 643, the `k * threshold` product of
  1343, and the `reduce` accumulations of 1423 — wraps two's-complement
  via `wrap32`; the `INT_MIN` sentinel in 643 is the literal
  `-2147483648`.  `int` variables that are counts bounded by the
  container length (1456, 2379, the window count of 1343) are modelled
  exactly, and 2461's `long long` accumulators are modelled as exact
  `Int`.  Idealised no-overflow versions carry an `I` suffix and are
  internal devices of the proofs.
* Out-of-range indexing `v[i]` is modelled by `List.getD` with a junk
  default; Option-returning variants (suffix `Chk`) model every access
  with `l[i]?` so that in-bounds behaviour is a theorem.
* The `unordered_map<int,int> cnt` of problem 2461 is modelled by the bag
  of its keys with multiplicity (a `List Int`); `cnt.size()` (number of
  distinct keys) is `cnt.dedup.length`.
-/

namespace SlidingWindow

/-- `v[i]` for integer vectors, with a junk default for the (unreachable)
out-of-bounds case. -/
def getI (xs : List Int) (i : Nat) : Int := xs.getD i 0

/-- `s[i]` for strings, with a junk default. -/
def getC (s : List Char) (i : Nat) : Char := s.getD i '?'

/-- The vowel test of 1456: `c=='a'||c=='e'||c=='i'||c=='o'||c=='u'`. -/
def isVowel (c : Char) : Bool := c = 'a' || c = 'e' || c = 'i' || c = 'o' || c = 'u'

/-- Two's-complement wrap of a C++ 32-bit `int` value. -/
def wrap32 (x : Int) : Int := (x + 2147483648) % 4294967296 - 2147483648

/-- `std::reduce` over `int` values: a left fold whose accumulator wraps. -/
def wrapSum (xs : List Int) : Int := xs.foldl (fun a x => wrap32 (a + x)) 0

/-! ## 1456. 定长子串中元音的最大数目 (`Solution::maxVowels`) -/

/-- The loop of `maxVowels`, recursing over the remaining characters.
`i` is the loop index, `ans` and `yuanyin` the two `int` locals.
The C++ guard `left = i-k+1 < 0` is `i + 1 < k`; on `ans == k` the loop
breaks and `ans` is returned. -/
def maxVowelsGo (s : List Char) (k : Nat) : Nat → Int → Int → List Char → Int
  | _, ans, _, [] => ans
  | i, ans, yuanyin, c :: rest =>
    let yuanyin := if isVowel c then yuanyin + 1 else yuanyin
    if i + 1 < k then
      maxVowelsGo s k (i + 1) ans yuanyin rest
    else
      let ans := max ans yuanyin
      if ans = (k : Int) then ans
      else
        let yuanyin := if isVowel (getC s (i + 1 - k)) then yuanyin - 1 else yuanyin
        maxVowelsGo s k (i + 1) ans yuanyin rest

/-- `Solution::maxVowels` of 1456. -/
def maxVowels (s : List Char) (k : Nat) : Int := maxVowelsGo s k 0 0 0 s

/-! ## 2379. 得到 K 个黑块的最少涂色次数 (`Solution::minimumRecolors`, two copies) -/

/-- The first loop of `minimumRecolors`: count of 'W' among indices `0..k-1`. -/
def minimumRecolorsInit (blocks : List Char) (k : Nat) : Int :=
  (List.range k).foldl (fun cntW i => if getC blocks i = 'W' then cntW + 1 else cntW) 0

/-- One iteration of the sliding loop of `minimumRecolors`; the state is
`(cntW, ans)`. -/
def minimumRecolorsStep (blocks : List Char) (k : Nat) (p : Int × Int) (r : Nat) :
    Int × Int :=
  let cntW := if getC blocks r = 'W' then p.1 + 1 else p.1
  let cntW := if getC blocks (r - k) = 'W' then cntW - 1 else cntW
  (cntW, min p.2 cntW)

/-- `Solution::minimumRecolors`, copy under `1-定长滑动窗口`. -/
def minimumRecolors (blocks : List Char) (k : Nat) : Int :=
  let n := blocks.length
  let cntW := minimumRecolorsInit blocks k
  ((List.range' k (n - k)).foldl (minimumRecolorsStep blocks k) (cntW, cntW)).2

/-- `Solution::minimumRecolors`, copy under `一、定长滑动窗口`; the two files
differ only in three leading comment lines, the code is identical. -/
def minimumRecolorsB (blocks : List Char) (k : Nat) : Int :=
  let n := blocks.length
  let cntW := minimumRecolorsInit blocks k
  ((List.range' k (n - k)).foldl (minimumRecolorsStep blocks k) (cntW, cntW)).2

/-! ## 1343. 大小为 K 且平均值大于等于阈值的子数组数目 (`Solution::numOfSubarrays`) -/

/-- One iteration of the loop of `numOfSubarrays`; the state is `(ans, s)`.
The `int` sum `s` and the `int` product `k * threshold` wrap;
`ans += s >= k * threshold` adds 1 when the comparison holds (`ans` is a
window count bounded by the length, modelled exactly). -/
def numOfSubarraysStep (arr : List Int) (k : Nat) (threshold : Int)
    (p : Int × Int) (i : Nat) : Int × Int :=
  let s := wrap32 (p.2 + getI arr i)
  if i < k - 1 then (p.1, s)
  else (p.1 + if wrap32 ((k : Int) * threshold) ≤ s then 1 else 0,
        wrap32 (s - getI arr (i + 1 - k)))

/-- `Solution::numOfSubarrays` of 1343. -/
def numOfSubarrays (arr : List Int) (k : Nat) (threshold : Int) : Int :=
  ((List.range arr.length).foldl (numOfSubarraysStep arr k threshold) (0, 0)).1

/-- Idealised (no-overflow) step of `numOfSubarrays`: what the loop body
computes when no `int` wraps. -/
def numOfSubarraysStepI (arr : List Int) (k : Nat) (threshold : Int)
    (p : Int × Int) (i : Nat) : Int × Int :=
  let s := p.2 + getI arr i
  if i < k - 1 then (p.1, s)
  else (p.1 + if (k : Int) * threshold ≤ s then 1 else 0, s - getI arr (i + 1 - k))

/-- Idealised (no-overflow) `numOfSubarrays`. -/
def numOfSubarraysI (arr : List Int) (k : Nat) (threshold : Int) : Int :=
  ((List.range arr.length).foldl (numOfSubarraysStepI arr k threshold) (0, 0)).1

/-! ## 1423. 可获得的最大点数 (`Solution::maxScore`) -/

/-- One iteration of the loop of `maxScore`; the state is `(min_s, s)` and
`m` is `n - k`, the size of the complement window.  The `int` element
difference `cardPoints[i] - cardPoints[i-m]` and the updated `int` sum
both wrap, in the order the C++ expression evaluates them. -/
def maxScoreStep (cardPoints : List Int) (m : Nat) (p : Int × Int) (i : Nat) :
    Int × Int :=
  let s := wrap32 (p.2 + wrap32 (getI cardPoints i - getI cardPoints (i - m)))
  (min p.1 s, s)

/-- `Solution::maxScore` of 1423: total sum minus the minimum sum of a
window of size `m = n - k`; both `reduce` calls accumulate in `int`. -/
def maxScore (cardPoints : List Int) (k : Nat) : Int :=
  let n := cardPoints.length
  let m := n - k
  let s := wrapSum (cardPoints.take m)
  let min_s := ((List.range' m (n - m)).foldl (maxScoreStep cardPoints m) (s, s)).1
  wrap32 (wrapSum cardPoints - min_s)

/-- Idealised (no-overflow) step of `maxScore`. -/
def maxScoreStepI (cardPoints : List Int) (m : Nat) (p : Int × Int) (i : Nat) :
    Int × Int :=
  let s := p.2 + getI cardPoints i - getI cardPoints (i - m)
  (min p.1 s, s)

/-- Idealised (no-overflow) `maxScore`. -/
def maxScoreI (cardPoints : List Int) (k : Nat) : Int :=
  let n := cardPoints.length
  let m := n - k
  let s := (cardPoints.take m).sum
  let min_s := ((List.range' m (n - m)).foldl (maxScoreStepI cardPoints m) (s, s)).1
  cardPoints.sum - min_s

/-! ## 2461. 长度为 K 子数组中的最大和 (`Solution::maximumSubarraySum`) -/

/-- One iteration of the loop of `maximumSubarraySum`; the state is
`(ans, s, cnt)` where `cnt` is the bag of keys of the `unordered_map`
with multiplicity, so `cnt.size()` is `cnt.dedup.length`.  The C++ guard
`left = i-k+1 < 0` is `i + 1 < k`; `--cnt[out]` followed by `erase` on
reaching zero is the removal of one occurrence of `out` from the bag. -/
def maximumSubarraySumStep (nums : List Int) (k : Nat)
    (p : Int × Int × List Int) (i : Nat) : Int × Int × List Int :=
  let x := getI nums i
  let s := p.2.1 + x
  let cnt := x :: p.2.2
  if i + 1 < k then (p.1, s, cnt)
  else
    let ans := if cnt.dedup.length = k then max p.1 s else p.1
    let out := getI nums (i + 1 - k)
    (ans, s - out, cnt.erase out)

/-- `Solution::maximumSubarraySum` of 2461. -/
def maximumSubarraySum (nums : List Int) (k : Nat) : Int :=
  ((List.range nums.length).foldl (maximumSubarraySumStep nums k) (0, 0, [])).1

/-! ## 643. 子数组最大平均数 I (`Solution::findMaxAverage`) -/

/-- One iteration of the loop of `findMaxAverage`; the state is
`(max_s, s)`, with `max_s` initialised to `INT_MIN`.  The `int` sum `s`
wraps; `max` of two in-range `int` values cannot overflow. -/
def findMaxAverageStep (nums : List Int) (k : Nat) (p : Int × Int) (i : Nat) :
    Int × Int :=
  let s := wrap32 (p.2 + getI nums i)
  if i < k - 1 then (p.1, s)
  else (max p.1 s, wrap32 (s - getI nums (i + 1 - k)))

/-- `Solution::findMaxAverage` of 643: `(double) max_s / k`.  Both operands
are in-range `int`s, hence exact in `double`; the quotient is modelled as
the exact rational (the spec instance 12.75 is exactly representable). -/
def findMaxAverage (nums : List Int) (k : Nat) : ℚ :=
  let max_s := ((List.range nums.length).foldl (findMaxAverageStep nums k)
    (-2147483648, 0)).1
  (max_s : ℚ) / (k : ℚ)

/-- Idealised (no-overflow) step of `findMaxAverage`. -/
def findMaxAverageStepI (nums : List Int) (k : Nat) (p : Int × Int) (i : Nat) :
    Int × Int :=
  let s := p.2 + getI nums i
  if i < k - 1 then (p.1, s)
  else (max p.1 s, s - getI nums (i + 1 - k))

/-- Idealised (no-overflow) `findMaxAverage`. -/
def findMaxAverageI (nums : List Int) (k : Nat) : ℚ :=
  let max_s := ((List.range nums.length).foldl (findMaxAverageStepI nums k)
    (-2147483648, 0)).1
  (max_s : ℚ) / (k : ℚ)

/-! ## Brute-force specifications (from the spec, recomputing each window) -/

/-- The length-`k` window of `xs` starting at `l`. -/
def window {α : Type} (xs : List α) (k l : Nat) : List α := (xs.drop l).take k

/-- Maximum of a list of integers (0 on the empty list, first element
seeding the fold otherwise). -/
def listMax : List Int → Int
  | [] => 0
  | x :: xs => xs.foldl max x

/-- Minimum of a list of integers (0 on the empty list). -/
def listMin : List Int → Int
  | [] => 0
  | x :: xs => xs.foldl min x

/-- Number of vowels in a list of characters. -/
def vowelCount (l : List Char) : Int := (l.countP isVowel : Nat)

/-- Brute force for 1456: the maximum, over all length-`k` windows, of the
window's vowel count. -/
def bruteMaxVowels (s : List Char) (k : Nat) : Int :=
  listMax ((List.range (s.length + 1 - k)).map fun l => vowelCount (window s k l))

/-- Number of characters different from 'B'. -/
def nonBCount (l : List Char) : Int := (l.countP (fun c => c ≠ 'B') : Nat)

/-- Brute force for 2379: the minimum, over all length-`k` windows, of the
window's count of non-'B' characters. -/
def bruteMinimumRecolors (blocks : List Char) (k : Nat) : Int :=
  listMin ((List.range (blocks.length + 1 - k)).map fun l => nonBCount (window blocks k l))

/-- Brute force for 1343: the number of length-`k` windows whose arithmetic
mean is at least `threshold`. -/
def bruteNumOfSubarrays (arr : List Int) (k : Nat) (threshold : Int) : Int :=
  (((List.range (arr.length + 1 - k)).filter fun l =>
    decide ((threshold : ℚ) ≤ ((window arr k l).sum : ℚ) / (k : ℚ))).length : Nat)

/-- Brute force for 1423, direct form: the maximum total over the ways of
taking `i` cards from the front and `k - i` from the back. -/
def bruteTakeEnds (cp : List Int) (k : Nat) : Int :=
  listMax ((List.range (k + 1)).map fun i =>
    (cp.take i).sum + (cp.drop (cp.length - (k - i))).sum)

/-- The sums of all windows of size `m`. -/
def blockSums (cp : List Int) (m : Nat) : List Int :=
  (List.range (cp.length + 1 - m)).map fun l => (window cp m l).sum

/-- Brute force for 1423, complement form: total sum minus the minimum sum
of a contiguous block of size `n - k`. -/
def bruteMaxScore (cp : List Int) (k : Nat) : Int :=
  cp.sum - listMin (blockSums cp (cp.length - k))

/-- The sums of those length-`k` windows whose elements are pairwise
distinct. -/
def qualifyingSums (nums : List Int) (k : Nat) : List Int :=
  (List.range (nums.length + 1 - k)).filterMap fun l =>
    if (window nums k l).Nodup then some ((window nums k l).sum) else none

/-- Brute force for 2461 as the claim states it: the maximum sum among
length-`k` windows with pairwise-distinct elements, and 0 if no such
window exists. -/
def bruteDistinctMax (nums : List Int) (k : Nat) : Int :=
  match qualifyingSums nums k with
  | [] => 0
  | x :: xs => listMax (x :: xs)

/-- The sums of all length-`k` windows. -/
def windowSums (nums : List Int) (k : Nat) : List Int :=
  (List.range (nums.length + 1 - k)).map fun l => (window nums k l).sum

/-- Brute force for 643: the maximum window sum divided by `k`, as an exact
rational. -/
def bruteFindMaxAverage (nums : List Int) (k : Nat) : ℚ :=
  (listMax (windowSums nums k) : ℚ) / (k : ℚ)

/-! ## Generalities about `foldl max` / `foldl min`, `listMax` / `listMin` -/

theorem foldl_max_shift (l : List Int) : ∀ a b : Int,
    l.foldl max (max a b) = max a (l.foldl max b) := by
  induction l with
  | nil => intro a b; rfl
  | cons c l ih =>
    intro a b
    simpa [List.foldl_cons, max_assoc] using ih a (max b c)

theorem foldl_min_shift (l : List Int) : ∀ a b : Int,
    l.foldl min (min a b) = min a (l.foldl min b) := by
  induction l with
  | nil => intro a b; rfl
  | cons c l ih =>
    intro a b
    simpa [List.foldl_cons, min_assoc] using ih a (min b c)

theorem le_foldl_max (l : List Int) : ∀ a : Int, a ≤ l.foldl max a := by
  induction l with
  | nil => intro a; simp
  | cons c l ih =>
    intro a
    exact le_trans (le_max_left a c) (ih (max a c))

theorem foldl_min_le (l : List Int) : ∀ a : Int, l.foldl min a ≤ a := by
  induction l with
  | nil => intro a; simp
  | cons c l ih =>
    intro a
    exact le_trans (ih (min a c)) (min_le_left a c)

theorem foldl_max_le (l : List Int) : ∀ a c : Int, a ≤ c → (∀ x ∈ l, x ≤ c) →
    l.foldl max a ≤ c := by
  induction l with
  | nil => intro a c h _; simpa using h
  | cons b l ih =>
    intro a c h hl
    exact ih _ _ (max_le h (hl b (by simp))) (fun x hx => hl x (by simp [hx]))

theorem le_foldl_min (l : List Int) : ∀ a c : Int, c ≤ a → (∀ x ∈ l, c ≤ x) →
    c ≤ l.foldl min a := by
  induction l with
  | nil => intro a c h _; simpa using h
  | cons b l ih =>
    intro a c h hl
    exact ih _ _ (le_min h (hl b (by simp))) (fun x hx => hl x (by simp [hx]))

theorem mem_le_foldl_max (l : List Int) : ∀ a x : Int, x ∈ l → x ≤ l.foldl max a := by
  induction l with
  | nil => intro a x hx; cases hx
  | cons b l ih =>
    intro a x hx
    rcases List.mem_cons.mp hx with h | h
    · subst h
      exact le_trans (le_max_right a x) (le_foldl_max l _)
    · exact ih _ x h

theorem foldl_min_le_mem (l : List Int) : ∀ a x : Int, x ∈ l → l.foldl min a ≤ x := by
  induction l with
  | nil => intro a x hx; cases hx
  | cons b l ih =>
    intro a x hx
    rcases List.mem_cons.mp hx with h | h
    · subst h
      exact le_trans (foldl_min_le l _) (min_le_right a x)
    · exact ih _ x h

theorem foldl_max_eq_or_mem (l : List Int) : ∀ a : Int,
    l.foldl max a = a ∨ l.foldl max a ∈ l := by
  induction l with
  | nil => intro a; left; rfl
  | cons b l ih =>
    intro a
    rcases ih (max a b) with h | h
    · rcases max_choice a b with h2 | h2
      · left; rw [List.foldl_cons, h, h2]
      · right; rw [List.foldl_cons, h, h2]; simp
    · right; simp [h]

theorem foldl_min_eq_or_mem (l : List Int) : ∀ a : Int,
    l.foldl min a = a ∨ l.foldl min a ∈ l := by
  induction l with
  | nil => intro a; left; rfl
  | cons b l ih =>
    intro a
    rcases ih (min a b) with h | h
    · rcases min_choice a b with h2 | h2
      · left; rw [List.foldl_cons, h, h2]
      · right; rw [List.foldl_cons, h, h2]; simp
    · right; simp [h]

theorem foldl_max_eq_listMax (l : List Int) (a : Int) (h : l ≠ []) :
    l.foldl max a = max a (listMax l) := by
  cases l with
  | nil => exact absurd rfl h
  | cons x xs =>
    rw [List.foldl_cons, foldl_max_shift]
    rfl

theorem foldl_min_eq_listMin (l : List Int) (a : Int) (h : l ≠ []) :
    l.foldl min a = min a (listMin l) := by
  cases l with
  | nil => exact absurd rfl h
  | cons x xs =>
    rw [List.foldl_cons, foldl_min_shift]
    rfl

theorem listMax_mem (l : List Int) (h : l ≠ []) : listMax l ∈ l := by
  cases l with
  | nil => exact absurd rfl h
  | cons x xs =>
    show xs.foldl max x ∈ x :: xs
    rcases foldl_max_eq_or_mem xs x with h2 | h2
    · simp [h2]
    · simp [h2]

theorem listMin_mem (l : List Int) (h : l ≠ []) : listMin l ∈ l := by
  cases l with
  | nil => exact absurd rfl h
  | cons x xs =>
    show xs.foldl min x ∈ x :: xs
    rcases foldl_min_eq_or_mem xs x with h2 | h2
    · simp [h2]
    · simp [h2]

theorem le_listMax (l : List Int) (x : Int) (hx : x ∈ l) : x ≤ listMax l := by
  cases l with
  | nil => cases hx
  | cons b xs =>
    rcases List.mem_cons.mp hx with h | h
    · subst h; exact le_foldl_max xs x
    · exact mem_le_foldl_max xs b x h

theorem listMin_le (l : List Int) (x : Int) (hx : x ∈ l) : listMin l ≤ x := by
  cases l with
  | nil => cases hx
  | cons b xs =>
    rcases List.mem_cons.mp hx with h | h
    · subst h; exact foldl_min_le xs x
    · exact foldl_min_le_mem xs b x h

theorem listMax_le (l : List Int) (c : Int) (h : l ≠ []) (hl : ∀ x ∈ l, x ≤ c) :
    listMax l ≤ c := hl _ (listMax_mem l h)

theorem le_listMin (l : List Int) (c : Int) (h : l ≠ []) (hl : ∀ x ∈ l, c ≤ x) :
    c ≤ listMin l := hl _ (listMin_mem l h)

theorem foldl_max_zero (l : List Int) (h : l ≠ []) (h0 : 0 ≤ listMax l) :
    l.foldl max 0 = listMax l := by
  rw [foldl_max_eq_listMax l 0 h, max_eq_right h0]

theorem listMax_map_sub (c : Int) (l : List Int) (h : l ≠ []) :
    listMax (l.map fun x => c - x) = c - listMin l := by
  cases l with
  | nil => exact absurd rfl h
  | cons x xs =>
    show (xs.map fun y => c - y).foldl max (c - x) = c - xs.foldl min x
    induction xs generalizing x with
    | nil => rfl
    | cons b xs ih =>
      rw [List.map_cons, List.foldl_cons, List.foldl_cons]
      rw [show max (c - x) (c - b) = c - min x b by
        rcases le_total x b with h2 | h2
        · rw [min_eq_left h2, max_eq_left (by omega)]
        · rw [min_eq_right h2, max_eq_right (by omega)]]
      exact ih (min x b) (by simp)

/-! ## Prefix sums and windows -/

theorem sumTake_succ (xs : List Int) (j : Nat) (h : j < xs.length) :
    (xs.take (j + 1)).sum = (xs.take j).sum + getI xs j := by
  rw [List.take_succ, List.sum_append, getI, List.getD_eq_getElem?_getD,
    List.getElem?_eq_getElem h]
  simp

theorem sumTake_window (xs : List Int) (k l : Nat) :
    (xs.take (l + k)).sum = (xs.take l).sum + (window xs k l).sum := by
  rw [List.take_add, List.sum_append]
  rfl

theorem window_length (xs : List Int) (k l : Nat) (h : l + k ≤ xs.length) :
    (window xs k l).length = k := by
  simp only [window, List.length_take, List.length_drop]
  omega

/-! ## The single-loop invariant shared by 1343 and 643 -/

/-- Invariant of the loop shared by `numOfSubarrays` and `findMaxAverage`:
after the first `j` iterations, the accumulator has combined the sums of
the `j + 1 - k` complete windows and `s` holds the sum of the trailing
partial window. -/
theorem slide_foldl_spec (xs : List Int) (k : Nat) (hk : 1 ≤ k)
    (combine : Int → Int → Int) (step : Int × Int → Nat → Int × Int)
    (hstep : ∀ p i, step p i =
      if i < k - 1 then (p.1, p.2 + getI xs i)
      else (combine p.1 (p.2 + getI xs i), p.2 + getI xs i - getI xs (i + 1 - k)))
    (a0 : Int) :
    ∀ j, j ≤ xs.length →
      (List.range j).foldl step (a0, 0) =
      (((List.range (j + 1 - k)).map fun l => (window xs k l).sum).foldl combine a0,
       (xs.take j).sum - (xs.take (j + 1 - k)).sum) := by
  intro j
  induction j with
  | zero =>
    intro _
    have h1 : 1 - k = 0 := by omega
    simp [h1]
  | succ j ih =>
    intro hj
    have hjn : j < xs.length := by omega
    have hsucc1 : (xs.take (j + 1)).sum = (xs.take j).sum + getI xs j :=
      sumTake_succ xs j hjn
    rw [List.range_succ, List.foldl_append, ih (by omega), List.foldl_cons,
      List.foldl_nil, hstep]
    by_cases hcase : j < k - 1
    · have h1 : j + 1 - k = 0 := by omega
      have h2 : j + 1 + 1 - k = 0 := by omega
      rw [if_pos hcase]
      simp only [h1, h2, List.range_zero, List.map_nil, List.foldl_nil,
        List.take_zero, List.sum_nil, Prod.mk.injEq]
      exact ⟨trivial, by omega⟩
    · have h2 : j + 1 + 1 - k = (j + 1 - k) + 1 := by omega
      have hwin := sumTake_window xs k (j + 1 - k)
      rw [show (j + 1 - k) + k = j + 1 by omega] at hwin
      have hsucc2 : (xs.take ((j + 1 - k) + 1)).sum =
          (xs.take (j + 1 - k)).sum + getI xs (j + 1 - k) :=
        sumTake_succ xs (j + 1 - k) (by omega)
      have hs : (xs.take j).sum - (xs.take (j + 1 - k)).sum + getI xs j =
          (window xs k (j + 1 - k)).sum := by omega
      rw [if_neg hcase, h2, List.range_succ, List.map_append, List.foldl_append]
      simp only [List.map_cons, List.map_nil, List.foldl_cons, List.foldl_nil,
        Prod.mk.injEq]
      rw [hs]
      exact ⟨rfl, by omega⟩

/-- Folding a conditional increment counts the entries satisfying the
predicate. -/
theorem foldl_count (P : Int → Prop) [DecidablePred P] (l : List Int) : ∀ c : Int,
    l.foldl (fun a s => a + if P s then 1 else 0) c =
      c + ((l.filter fun s => decide (P s)).length : Nat) := by
  induction l with
  | nil => intro c; simp
  | cons b l ih =>
    intro c
    by_cases hb : P b
    · rw [List.foldl_cons, if_pos hb, ih, List.filter_cons_of_pos (by simpa using hb)]
      simp only [List.length_cons]
      push_cast
      ring
    · rw [List.foldl_cons, if_neg hb, ih, List.filter_cons_of_neg (by simpa using hb)]
      ring

/-- The idealised `numOfSubarrays` counts the windows whose sum is at
least `k * threshold`. -/
theorem numOfSubarraysI_count (arr : List Int) (k : Nat) (t : Int) (hk : 1 ≤ k) :
    numOfSubarraysI arr k t =
      (((List.range (arr.length + 1 - k)).filter fun l =>
        decide ((k : Int) * t ≤ (window arr k l).sum)).length : Nat) := by
  have h := slide_foldl_spec arr k hk
    (fun a s => a + if (k : Int) * t ≤ s then 1 else 0)
    (numOfSubarraysStepI arr k t) (fun p i => rfl) 0 arr.length le_rfl
  rw [numOfSubarraysI, h]
  show ((List.range (arr.length + 1 - k)).map fun l => (window arr k l).sum).foldl
    (fun a s => a + if (k : Int) * t ≤ s then 1 else 0) 0 = _
  rw [foldl_count (fun s => (k : Int) * t ≤ s) _ 0, List.filter_map,
    List.length_map, zero_add]
  rfl

/-- The idealised `numOfSubarrays` equals the brute-force count of windows
with mean at least `threshold`. -/
theorem numOfSubarraysI_eq_brute (arr : List Int) (k : Nat) (t : Int) (hk : 1 ≤ k) :
    numOfSubarraysI arr k t = bruteNumOfSubarrays arr k t := by
  rw [numOfSubarraysI_count arr k t hk, bruteNumOfSubarrays]
  have h0 : (0 : ℚ) < (k : ℚ) := by
    have : 0 < k := by omega
    exact_mod_cast this
  congr 2
  apply List.filter_congr
  intro l _
  rw [decide_eq_decide, le_div_iff₀ h0, mul_comm (t : ℚ) (k : ℚ)]
  exact_mod_cast Iff.rfl

/-- The loop of `findMaxAverage` computes the fold of `max` over all window
sums, seeded with the `INT_MIN` sentinel. -/
theorem findMaxAverageI_max_s (nums : List Int) (k : Nat) (hk : 1 ≤ k) :
    ((List.range nums.length).foldl (findMaxAverageStepI nums k)
      (-2147483648, 0)).1 = (windowSums nums k).foldl max (-2147483648) := by
  rw [slide_foldl_spec nums k hk max (findMaxAverageStepI nums k) (fun p i => rfl)
    (-2147483648) nums.length le_rfl]
  rfl

theorem windowSums_length (nums : List Int) (k : Nat) :
    (windowSums nums k).length = nums.length + 1 - k := by
  simp [windowSums]

/-- When every window sum clears the `INT_MIN` sentinel, the idealised
`findMaxAverage` returns the true maximum average. -/
theorem findMaxAverageI_eq_brute (nums : List Int) (k : Nat) (hk : 1 ≤ k)
    (hkn : k ≤ nums.length)
    (hbound : ∀ x ∈ windowSums nums k, -2147483648 ≤ x) :
    findMaxAverageI nums k = bruteFindMaxAverage nums k := by
  have hne : windowSums nums k ≠ [] := by
    intro hnil
    have h1 := windowSums_length nums k
    rw [hnil] at h1
    simp at h1
    omega
  rw [findMaxAverageI, bruteFindMaxAverage, findMaxAverageI_max_s nums k hk,
    foldl_max_eq_listMax _ _ hne,
    max_eq_right (hbound _ (listMax_mem _ hne))]

/-! ## The loops of 2379 (`minimumRecolors`) -/

/-- Number of 'W' characters, as an integer. -/
def wCount (l : List Char) : Int := (l.countP (fun c => c = 'W') : Nat)

theorem wCount_take_succ (blocks : List Char) (j : Nat) (h : j < blocks.length) :
    wCount (blocks.take (j + 1)) =
      wCount (blocks.take j) + if getC blocks j = 'W' then 1 else 0 := by
  rw [wCount, wCount, List.take_succ, List.countP_append, getC,
    List.getD_eq_getElem?_getD, List.getElem?_eq_getElem h]
  by_cases hW : blocks[j] = 'W' <;> simp [hW]

theorem wCount_take_window (blocks : List Char) (k l : Nat) :
    wCount (blocks.take (l + k)) =
      wCount (blocks.take l) + wCount (window blocks k l) := by
  rw [wCount, wCount, wCount, List.take_add, List.countP_append]
  push_cast
  rfl

theorem minimumRecolorsInit_spec (blocks : List Char) (k : Nat)
    (hk : k ≤ blocks.length) :
    minimumRecolorsInit blocks k = wCount (blocks.take k) := by
  suffices h : ∀ j, j ≤ k →
      (List.range j).foldl
        (fun cntW i => if getC blocks i = 'W' then cntW + 1 else cntW) 0 =
      wCount (blocks.take j) from h k le_rfl
  intro j
  induction j with
  | zero => intro _; simp [wCount]
  | succ j ih =>
    intro hj
    rw [List.range_succ, List.foldl_append, ih (by omega), List.foldl_cons,
      List.foldl_nil, wCount_take_succ blocks j (by omega)]
    by_cases hW : getC blocks j = 'W' <;> simp [hW]

theorem listMin_append_singleton (l : List Int) (x : Int) (h : l ≠ []) :
    listMin (l ++ [x]) = min (listMin l) x := by
  cases l with
  | nil => exact absurd rfl h
  | cons b bs =>
    show ((bs ++ [x]).foldl min b) = min (bs.foldl min b) x
    rw [List.foldl_append, List.foldl_cons, List.foldl_nil]

theorem listMax_append_singleton (l : List Int) (x : Int) (h : l ≠ []) :
    listMax (l ++ [x]) = max (listMax l) x := by
  cases l with
  | nil => exact absurd rfl h
  | cons b bs =>
    show ((bs ++ [x]).foldl max b) = max (bs.foldl max b) x
    rw [List.foldl_append, List.foldl_cons, List.foldl_nil]

theorem ite_add_one (c : Prop) [Decidable c] (a : Int) :
    (if c then a + 1 else a) = a + (if c then 1 else 0) := by
  split <;> ring

theorem ite_sub_one (c : Prop) [Decidable c] (a : Int) :
    (if c then a - 1 else a) = a - (if c then 1 else 0) := by
  split <;> ring

/-- Invariant of the sliding loop of `minimumRecolors`: having slid `d`
steps, `cntW` is the 'W' count of the current window and `ans` the minimum
over the windows seen so far. -/
theorem minRecolors_loop (blocks : List Char) (k : Nat) (hk : 1 ≤ k) :
    ∀ d, k + d ≤ blocks.length →
      (List.range' k d).foldl (minimumRecolorsStep blocks k)
        (wCount (blocks.take k), wCount (blocks.take k)) =
      (wCount (blocks.take (k + d)) - wCount (blocks.take d),
       listMin ((List.range (d + 1)).map fun l => wCount (window blocks k l))) := by
  intro d
  induction d with
  | zero =>
    intro _
    have h0 : window blocks k 0 = blocks.take k := by simp [window]
    simp [listMin, h0, wCount, List.range_succ]
  | succ d ih =>
    intro hd
    have hkd : k + d < blocks.length := by omega
    have hdn : d < blocks.length := by omega
    have h1 := wCount_take_succ blocks (k + d) hkd
    have h2 := wCount_take_succ blocks d hdn
    have h3 := wCount_take_window blocks k (d + 1)
    rw [show d + 1 + k = k + d + 1 by omega] at h3
    have hne : ((List.range (d + 1)).map fun l => wCount (window blocks k l)) ≠ [] := by
      simp
    rw [show k + (d + 1) = k + d + 1 by omega]
    rw [List.range'_concat, List.foldl_append, ih (by omega), List.foldl_cons,
      List.foldl_nil, one_mul, List.range_succ (d + 1), List.map_append,
      List.map_cons, List.map_nil, listMin_append_singleton _ _ hne]
    simp only [minimumRecolorsStep, show k + d - k = d by omega, ite_add_one,
      ite_sub_one, Prod.mk.injEq]
    have hAB : wCount (blocks.take (k + d)) - wCount (blocks.take d) +
        (if getC blocks (k + d) = 'W' then (1 : Int) else 0) -
        (if getC blocks d = 'W' then (1 : Int) else 0) =
        wCount (window blocks k (d + 1)) := by omega
    constructor
    · omega
    · rw [hAB]

/-- `minimumRecolors` equals the minimum 'W' count over all length-`k`
windows. -/
theorem minimumRecolors_spec_W (blocks : List Char) (k : Nat) (hk : 1 ≤ k)
    (hkn : k ≤ blocks.length) :
    minimumRecolors blocks k =
      listMin ((List.range (blocks.length + 1 - k)).map fun l =>
        wCount (window blocks k l)) := by
  rw [minimumRecolors, minimumRecolorsInit_spec blocks k hkn]
  have h := minRecolors_loop blocks k hk (blocks.length - k) (by omega)
  rw [h, show blocks.length - k + 1 = blocks.length + 1 - k by omega]

/-! ## The loop of 1423 (`maxScore`) -/

/-- Invariant of the loop of `maxScore`: having slid `d` steps past the
initial block of size `m`, `s` is the sum of the current block and `min_s`
the minimum over the blocks seen so far. -/
theorem maxScore_loop (cp : List Int) (m : Nat) :
    ∀ d, m + d ≤ cp.length →
      (List.range' m d).foldl (maxScoreStepI cp m)
        ((cp.take m).sum, (cp.take m).sum) =
      (listMin ((List.range (d + 1)).map fun l => (window cp m l).sum),
       (cp.take (m + d)).sum - (cp.take d).sum) := by
  intro d
  induction d with
  | zero =>
    intro _
    have h0 : window cp m 0 = cp.take m := by simp [window]
    simp [listMin, h0, List.range_succ]
  | succ d ih =>
    intro hd
    have hkd : m + d < cp.length := by omega
    have hdn : d < cp.length := by omega
    have h1 := sumTake_succ cp (m + d) hkd
    have h2 := sumTake_succ cp d hdn
    have h3 := sumTake_window cp m (d + 1)
    rw [show d + 1 + m = m + d + 1 by omega] at h3
    have hne : ((List.range (d + 1)).map fun l => (window cp m l).sum) ≠ [] := by
      simp
    rw [show m + (d + 1) = m + d + 1 by omega]
    rw [List.range'_concat, List.foldl_append, ih (by omega), List.foldl_cons,
      List.foldl_nil, one_mul, List.range_succ (d + 1), List.map_append,
      List.map_cons, List.map_nil, listMin_append_singleton _ _ hne]
    simp only [maxScoreStepI, show m + d - m = d by omega, Prod.mk.injEq]
    have hAB : (cp.take (m + d)).sum - (cp.take d).sum + getI cp (m + d) -
        getI cp d = (window cp m (d + 1)).sum := by omega
    constructor
    · rw [hAB]
    · omega

/-- The idealised `maxScore` equals its complement formulation: total sum
minus the minimum block sum of size `n - k`. -/
theorem maxScoreI_spec (cp : List Int) (k : Nat) (hkn : k ≤ cp.length) :
    maxScoreI cp k = bruteMaxScore cp k := by
  rw [maxScoreI, bruteMaxScore, blockSums]
  have h := maxScore_loop cp (cp.length - k) (cp.length - (cp.length - k)) (by omega)
  rw [show cp.length - k + (cp.length - (cp.length - k)) = cp.length by omega] at h
  rw [h, show cp.length - (cp.length - k) + 1 = cp.length + 1 - (cp.length - k)
    by omega]

/-- The direct take-from-both-ends formulation equals the complement
formulation. -/
theorem bruteTakeEnds_eq (cp : List Int) (k : Nat) (hkn : k ≤ cp.length) :
    bruteTakeEnds cp k = bruteMaxScore cp k := by
  rw [bruteTakeEnds, bruteMaxScore, blockSums]
  have hm : cp.length + 1 - (cp.length - k) = k + 1 := by omega
  rw [hm]
  have hne : (List.range (k + 1)).map (fun l => (window cp (cp.length - k) l).sum) ≠ [] := by
    simp
  rw [show cp.sum - listMin ((List.range (k + 1)).map fun l =>
      (window cp (cp.length - k) l).sum) =
    listMax (((List.range (k + 1)).map fun l =>
      (window cp (cp.length - k) l).sum).map fun x => cp.sum - x) from
    (listMax_map_sub _ _ hne).symm]
  rw [List.map_map]
  congr 1
  apply List.map_congr_left
  intro i hi
  have hik : i ≤ k := by
    have := List.mem_range.mp hi
    omega
  have hdrop : cp.length - (k - i) = i + (cp.length - k) := by omega
  have hsplit := List.sum_take_add_sum_drop cp (i + (cp.length - k))
  have hwin := sumTake_window cp (cp.length - k) i
  simp only [Function.comp]
  rw [hdrop]
  omega

/-! ## The loop of 1456 (`maxVowels`) -/

theorem vowelCount_take_succ (s : List Char) (j : Nat) (h : j < s.length) :
    vowelCount (s.take (j + 1)) =
      vowelCount (s.take j) + if isVowel (getC s j) then 1 else 0 := by
  rw [vowelCount, vowelCount, List.take_succ, List.countP_append, getC,
    List.getD_eq_getElem?_getD, List.getElem?_eq_getElem h]
  by_cases hv : isVowel s[j] <;> simp [hv]

theorem vowelCount_take_window (s : List Char) (k l : Nat) :
    vowelCount (s.take (l + k)) =
      vowelCount (s.take l) + vowelCount (window s k l) := by
  rw [vowelCount, vowelCount, vowelCount, List.take_add, List.countP_append]
  push_cast
  rfl

theorem vowelCount_nonneg (l : List Char) : 0 ≤ vowelCount l := by
  rw [vowelCount]
  exact Int.natCast_nonneg _

theorem vowelCount_window_le (s : List Char) (k l : Nat) :
    vowelCount (window s k l) ≤ (k : Int) := by
  have h1 := List.countP_le_length isVowel (l := window s k l)
  have h2 : (window s k l).length ≤ k := by
    simp only [window, List.length_take, List.length_drop]
    omega
  rw [vowelCount]
  omega

theorem foldMax0_mono (f : Nat → Int) : ∀ a b : Nat, a ≤ b →
    ((List.range a).map f).foldl max 0 ≤ ((List.range b).map f).foldl max 0 := by
  intro a b
  induction b with
  | zero =>
    intro h
    have ha : a = 0 := by omega
    rw [ha]
  | succ b ih =>
    intro h
    rcases Nat.lt_or_ge a (b + 1) with h2 | h2
    · refine le_trans (ih (by omega)) ?_
      rw [List.range_succ, List.map_append, List.foldl_append]
      simp only [List.map_cons, List.map_nil, List.foldl_cons, List.foldl_nil]
      exact le_max_left _ _
    · have ha : a = b + 1 := by omega
      rw [ha]

/-- Invariant of the loop of `maxVowels`: at the head of each iteration
`ans` is the running maximum over the complete windows already seen and
`yuanyin` the vowel count of the trailing partial window; the early break
on `ans == k` is sound because no window holds more than `k` vowels. -/
theorem maxVowelsGo_spec (s : List Char) (k : Nat) (hk : 1 ≤ k)
    (hkn : k ≤ s.length) :
    ∀ (rest : List Char) (i : Nat) (ans yuanyin : Int), rest = s.drop i →
      i ≤ s.length →
      ans = ((List.range (i + 1 - k)).map fun l =>
        vowelCount (window s k l)).foldl max 0 →
      yuanyin = vowelCount (s.take i) - vowelCount (s.take (i + 1 - k)) →
      maxVowelsGo s k i ans yuanyin rest =
        ((List.range (s.length + 1 - k)).map fun l =>
          vowelCount (window s k l)).foldl max 0 := by
  intro rest
  induction rest with
  | nil =>
    intro i ans yy hdrop hi hans hyy
    have hieq : i = s.length := by
      have := List.drop_eq_nil_iff.mp hdrop.symm
      omega
    rw [maxVowelsGo, hans, hieq]
  | cons c rest ih =>
    intro i ans yy hdrop hi hans hyy
    have hin : i < s.length := by
      by_contra hc
      rw [List.drop_eq_nil_of_le (by omega)] at hdrop
      exact List.noConfusion hdrop
    have hget := List.drop_eq_getElem_cons hin
    rw [hget] at hdrop
    injection hdrop with hc hrest
    have hgetC : getC s i = c := by
      rw [getC, List.getD_eq_getElem?_getD, List.getElem?_eq_getElem hin, hc]
      rfl
    have hsucc := vowelCount_take_succ s i hin
    rw [hgetC] at hsucc
    simp only [maxVowelsGo]
    by_cases hlt : i + 1 < k
    · rw [if_pos hlt]
      refine ih (i + 1) ans _ hrest (by omega) ?_ ?_
      · rw [hans, show i + 1 - k = 0 by omega, show i + 1 + 1 - k = 0 by omega]
      · rw [hyy, hsucc, show i + 1 - k = 0 by omega,
          show i + 1 + 1 - k = 0 by omega]
        by_cases hv : isVowel c <;> simp [hv] <;> ring
    · rw [if_neg hlt]
      have hwin := vowelCount_take_window s k (i + 1 - k)
      rw [show i + 1 - k + k = i + 1 by omega] at hwin
      have hyy2 : (if isVowel c then yy + 1 else yy) =
          vowelCount (window s k (i + 1 - k)) := by
        rw [hyy]
        by_cases hv : isVowel c <;> simp [hv] at hsucc ⊢ <;> omega
      have hfold : max ans (vowelCount (window s k (i + 1 - k))) =
          ((List.range (i + 1 + 1 - k)).map fun l =>
            vowelCount (window s k l)).foldl max 0 := by
        rw [show i + 1 + 1 - k = (i + 1 - k) + 1 by omega, List.range_succ,
          List.map_append, List.foldl_append, List.map_cons, List.map_nil,
          List.foldl_cons, List.foldl_nil, hans]
      rw [hyy2]
      by_cases hbreak : max ans (vowelCount (window s k (i + 1 - k))) = (k : Int)
      · rw [if_pos hbreak]
        have hle1 : max ans (vowelCount (window s k (i + 1 - k))) ≤
            ((List.range (s.length + 1 - k)).map fun l =>
              vowelCount (window s k l)).foldl max 0 := by
          rw [hfold]
          exact foldMax0_mono _ _ _ (by omega)
        have hle2 : ((List.range (s.length + 1 - k)).map fun l =>
            vowelCount (window s k l)).foldl max 0 ≤ (k : Int) := by
          apply foldl_max_le
          · exact_mod_cast Nat.zero_le k
          · intro x hx
            rcases List.mem_map.mp hx with ⟨l, _, hl⟩
            rw [← hl]
            exact vowelCount_window_le s k l
        omega
      · rw [if_neg hbreak]
        refine ih (i + 1) _ _ hrest (by omega) hfold ?_
        have hsucc2 := vowelCount_take_succ s (i + 1 - k) (by omega)
        rw [show i + 1 - k + 1 = i + 1 + 1 - k by omega] at hsucc2
        by_cases hv : isVowel (getC s (i + 1 - k)) <;>
          simp [hv] at hsucc2 ⊢ <;> omega

/-- `maxVowels` computes the fold of `max` over all window vowel counts. -/
theorem maxVowels_foldl (s : List Char) (k : Nat) (hk : 1 ≤ k)
    (hkn : k ≤ s.length) :
    maxVowels s k = ((List.range (s.length + 1 - k)).map fun l =>
      vowelCount (window s k l)).foldl max 0 := by
  refine maxVowelsGo_spec s k hk hkn s 0 0 0 rfl (by omega) ?_ ?_
  · rw [show 0 + 1 - k = 0 by omega]
    rfl
  · rw [show 0 + 1 - k = 0 by omega]
    simp [vowelCount]

/-- `maxVowels` equals the brute-force maximum window vowel count. -/
theorem maxVowels_eq_brute (s : List Char) (k : Nat) (hk : 1 ≤ k)
    (hkn : k ≤ s.length) :
    maxVowels s k = bruteMaxVowels s k := by
  rw [maxVowels_foldl s k hk hkn, bruteMaxVowels]
  have hne : ((List.range (s.length + 1 - k)).map fun l =>
      vowelCount (window s k l)) ≠ [] := by
    simp
    omega
  apply foldl_max_zero _ hne
  have hmem := listMax_mem _ hne
  rcases List.mem_map.mp hmem with ⟨l, _, hl⟩
  rw [← hl]
  exact vowelCount_nonneg _

/-! ## The loop of 2461 (`maximumSubarraySum`) -/

/-- The number of distinct values in a list, via `dedup`, equals its length
exactly when the list has no duplicates. -/
theorem dedup_length_eq_iff (l : List Int) (k : Nat) (hlen : l.length = k) :
    l.dedup.length = k ↔ l.Nodup := by
  constructor
  · intro h
    have hsub := List.dedup_sublist l
    have heq : l.dedup = l := hsub.eq_of_length (by omega)
    rw [← heq]
    exact l.nodup_dedup
  · intro h
    rw [List.dedup_eq_self.mpr h, hlen]

/-- Invariant of the loop of `maximumSubarraySum`: at the head of each
iteration the bag `cnt` holds (up to permutation) the elements of the
trailing partial window, `s` its sum, and `ans` the clamped maximum over
the all-distinct complete windows already seen. -/
theorem maximumSubarraySum_loop (nums : List Int) (k : Nat) (hk : 1 ≤ k) :
    ∀ j, j ≤ nums.length →
      ∃ cnt : List Int,
        cnt.Perm ((nums.take j).drop (j + 1 - k)) ∧
        (List.range j).foldl (maximumSubarraySumStep nums k) (0, 0, []) =
        (((List.range (j + 1 - k)).filterMap fun l =>
            if (window nums k l).Nodup then some ((window nums k l).sum)
            else none).foldl max 0,
         (nums.take j).sum - (nums.take (j + 1 - k)).sum,
         cnt) := by
  intro j
  induction j with
  | zero =>
    intro _
    refine ⟨[], by simp, ?_⟩
    rw [show 0 + 1 - k = 0 by omega]
    simp
  | succ j ih =>
    intro hj
    have hjn : j < nums.length := by omega
    obtain ⟨cnt, hperm, hstate⟩ := ih (by omega)
    have hx : getI nums j = nums[j] := by
      rw [getI, List.getD_eq_getElem?_getD, List.getElem?_eq_getElem hjn]
      rfl
    have htake : nums.take (j + 1) = nums.take j ++ [nums[j]] := by
      rw [List.take_succ, List.getElem?_eq_getElem hjn]
      rfl
    have hsucc1 : (nums.take (j + 1)).sum = (nums.take j).sum + getI nums j := by
      rw [htake, List.sum_append, hx]
      simp
    have hdropW : (nums.take (j + 1)).drop (j + 1 - k) =
        (nums.take j).drop (j + 1 - k) ++ [nums[j]] := by
      rw [htake, List.drop_append_of_le_length]
      rw [List.length_take]
      omega
    have hpermW : (getI nums j :: cnt).Perm
        ((nums.take (j + 1)).drop (j + 1 - k)) := by
      rw [hdropW, hx]
      exact ((hperm.cons nums[j]).trans
        (List.perm_append_singleton nums[j] _).symm)
    rw [List.range_succ, List.foldl_append, hstate, List.foldl_cons,
      List.foldl_nil]
    by_cases hlt : j + 1 < k
    · refine ⟨getI nums j :: cnt, ?_, ?_⟩
      · rw [show j + 1 + 1 - k = j + 1 - k by omega]
        exact hpermW
      · simp only [maximumSubarraySumStep, if_pos hlt]
        rw [show j + 1 + 1 - k = 0 by omega, show j + 1 - k = 0 by omega]
        simp only [Prod.mk.injEq]
        refine ⟨trivial, by omega, trivial⟩
    · have hkj : k ≤ j + 1 := by omega
      have hl2 : j + 1 + 1 - k = (j + 1 - k) + 1 := by omega
      have hWF : (nums.take (j + 1)).drop (j + 1 - k) =
          window nums k (j + 1 - k) := by
        rw [window, List.drop_take, show j + 1 - (j + 1 - k) = k by omega]
      have hlenF : (window nums k (j + 1 - k)).length = k :=
        window_length nums k (j + 1 - k) (by omega)
      have hpermF : (getI nums j :: cnt).Perm (window nums k (j + 1 - k)) := by
        rw [← hWF]
        exact hpermW
      have hcond : ((getI nums j :: cnt).dedup.length = k) ↔
          (window nums k (j + 1 - k)).Nodup := by
        rw [show (getI nums j :: cnt).dedup.length =
            (window nums k (j + 1 - k)).dedup.length from hpermF.dedup.length_eq]
        exact dedup_length_eq_iff _ k hlenF
      have hwin := sumTake_window nums k (j + 1 - k)
      rw [show j + 1 - k + k = j + 1 by omega] at hwin
      have hsum2 : 0 + ((nums.take j).sum - (nums.take (j + 1 - k)).sum +
          getI nums j) = (window nums k (j + 1 - k)).sum := by omega
      have hltn : j + 1 - k < nums.length := by omega
      have hout : getI nums (j + 1 - k) = nums[j + 1 - k] := by
        rw [getI, List.getD_eq_getElem?_getD, List.getElem?_eq_getElem hltn]
        rfl
      have hsucc2 : (nums.take ((j + 1 - k) + 1)).sum =
          (nums.take (j + 1 - k)).sum + getI nums (j + 1 - k) :=
        sumTake_succ nums (j + 1 - k) hltn
      have hdropS : window nums k (j + 1 - k) =
          nums[j + 1 - k] :: (nums.take (j + 1)).drop ((j + 1 - k) + 1) := by
        rw [← hWF, List.drop_eq_getElem_cons (by rw [List.length_take]; omega),
          List.getElem_take]
      refine ⟨(getI nums j :: cnt).erase (getI nums (j + 1 - k)), ?_, ?_⟩
      · have hperm2 := hpermF.erase (getI nums (j + 1 - k))
        rw [hl2]
        refine hperm2.trans ?_
        rw [hdropS, hout, List.erase_cons_head]
      · simp only [maximumSubarraySumStep, if_neg hlt]
        rw [hl2, List.range_succ, List.filterMap_append]
        simp only [hcond]
        by_cases hnd : (window nums k (j + 1 - k)).Nodup
        · rw [List.filterMap_cons_some
            (b := (window nums k (j + 1 - k)).sum) (by simp [hnd]),
            List.filterMap_nil]
          simp only [hnd, if_true, List.foldl_append, List.foldl_cons,
            List.foldl_nil, Prod.mk.injEq]
          have hss : (nums.take j).sum - (nums.take (j + 1 - k)).sum +
              getI nums j = (window nums k (j + 1 - k)).sum := by omega
          refine ⟨by rw [hss], by omega, trivial⟩
        · rw [List.filterMap_cons_none (by simp [hnd]), List.filterMap_nil,
            List.append_nil]
          simp only [hnd, if_false, Prod.mk.injEq]
          refine ⟨trivial, by omega, trivial⟩

/-- `maximumSubarraySum` is the fold of `max` from 0 over the sums of the
all-distinct windows. -/
theorem maximumSubarraySum_foldl (nums : List Int) (k : Nat) (hk : 1 ≤ k) :
    maximumSubarraySum nums k = (qualifyingSums nums k).foldl max 0 := by
  obtain ⟨cnt, _, hstate⟩ := maximumSubarraySum_loop nums k hk nums.length le_rfl
  rw [maximumSubarraySum, hstate]
  rfl

/-- `maximumSubarraySum` clamps the brute-force all-distinct maximum at 0. -/
theorem maximumSubarraySum_eq_brute (nums : List Int) (k : Nat) (hk : 1 ≤ k) :
    maximumSubarraySum nums k = max 0 (bruteDistinctMax nums k) := by
  rw [maximumSubarraySum_foldl nums k hk, bruteDistinctMax]
  cases hq : qualifyingSums nums k with
  | nil => simp
  | cons x xs =>
    rw [List.foldl_cons]
    exact foldl_max_shift xs 0 x

/-! ## Bridges for the recoloring claim (alphabet \x7b'W','B'\x7d) -/

theorem window_subset {α : Type} (xs : List α) (k l : Nat) :
    ∀ x ∈ window xs k l, x ∈ xs := by
  intro x hx
  exact List.drop_subset l xs (List.take_subset k (xs.drop l) hx)

theorem wCount_eq_nonBCount (l : List Char) (h : ∀ c ∈ l, c = 'W' ∨ c = 'B') :
    wCount l = nonBCount l := by
  rw [wCount, nonBCount]
  congr 1
  apply List.countP_congr
  intro c hc
  rcases h c hc with h1 | h1 <;> subst h1 <;> rfl

/-- Over the alphabet \x7b'W','B'\x7d, `minimumRecolors` is the brute-force
minimum non-'B' count over all windows. -/
theorem minimumRecolors_eq_brute (blocks : List Char) (k : Nat) (hk : 1 ≤ k)
    (hkn : k ≤ blocks.length) (hWB : ∀ c ∈ blocks, c = 'W' ∨ c = 'B') :
    minimumRecolors blocks k = bruteMinimumRecolors blocks k := by
  rw [minimumRecolors_spec_W blocks k hk hkn, bruteMinimumRecolors]
  congr 1
  apply List.map_congr_left
  intro l _
  exact wCount_eq_nonBCount _ (fun c hc => hWB c (window_subset blocks k l c hc))

theorem minimumRecolorsB_eq (blocks : List Char) (k : Nat) :
    minimumRecolorsB blocks k = minimumRecolors blocks k := rfl

/-! ## Wrap-level arithmetic: the wrapped `int` loops agree with the
idealised ones when no intermediate value leaves the 32-bit range -/

theorem wrap32_eq_self (x : Int) (h1 : -2147483648 ≤ x) (h2 : x < 2147483648) :
    wrap32 x = x := by
  rw [wrap32, Int.emod_eq_of_lt (by omega) (by omega)]
  omega

theorem wrap32_zero : wrap32 0 = 0 := by decide

theorem window_one_sum (xs : List Int) (i : Nat) (h : i < xs.length) :
    (window xs 1 i).sum = getI xs i := by
  rw [window, List.drop_eq_getElem_cons h, getI, List.getD_eq_getElem?_getD,
    List.getElem?_eq_getElem h]
  show ([xs[i]] : List Int).sum = xs[i]
  simp

/-- A wrapping `int` accumulation agrees with exact summation when every
partial sum stays in range. -/
theorem wrapSum_go (xs : List Int) : ∀ a : Int,
    (∀ j, j ≤ xs.length → -2147483648 ≤ a + (xs.take j).sum ∧
      a + (xs.take j).sum < 2147483648) →
    xs.foldl (fun b x => wrap32 (b + x)) a = a + xs.sum := by
  induction xs with
  | nil => intro a _; simp
  | cons x tail ih =>
    intro a h
    have h1 := h 1 (by simp)
    simp only [List.take_succ_cons, List.take_zero, List.sum_cons,
      List.sum_nil, add_zero] at h1
    rw [List.foldl_cons, wrap32_eq_self (a + x) h1.1 h1.2, ih (a + x) ?_,
      List.sum_cons]
    · ring
    · intro j hj
      have h2 := h (j + 1) (by simp; omega)
      rw [List.take_succ_cons, List.sum_cons] at h2
      constructor <;> omega

theorem wrapSum_eq_sum (xs : List Int)
    (h : ∀ j, j ≤ xs.length →
      -2147483648 ≤ (xs.take j).sum ∧ (xs.take j).sum < 2147483648) :
    wrapSum xs = xs.sum := by
  rw [wrapSum, wrapSum_go xs 0 ?_]
  · omega
  · intro j hj
    have := h j hj
    constructor <;> omega

/-- The wrapped loop of 1343 agrees with the idealised one when every sum
of at most `k` consecutive elements and the product `k * threshold` are
32-bit values. -/
theorem numOfSubarrays_eq_ideal (arr : List Int) (k : Nat) (t : Int)
    (hk : 1 ≤ k)
    (hseg : ∀ l, l ≤ arr.length → ∀ len, len ≤ k →
      -2147483648 ≤ (window arr len l).sum ∧ (window arr len l).sum < 2147483648)
    (hkt1 : -2147483648 ≤ (k : Int) * t) (hkt2 : (k : Int) * t < 2147483648) :
    numOfSubarrays arr k t = numOfSubarraysI arr k t := by
  rw [numOfSubarrays, numOfSubarraysI]
  suffices h : ∀ j, j ≤ arr.length →
      (List.range j).foldl (numOfSubarraysStep arr k t) (0, 0) =
      (List.range j).foldl (numOfSubarraysStepI arr k t) (0, 0) by
    rw [h arr.length le_rfl]
  intro j
  induction j with
  | zero => intro _; rfl
  | succ j ih =>
    intro hj
    have hjn : j < arr.length := by omega
    rw [List.range_succ, List.foldl_append, List.foldl_append, ih (by omega),
      List.foldl_cons, List.foldl_cons, List.foldl_nil, List.foldl_nil,
      slide_foldl_spec arr k hk
        (fun a s => a + if (k : Int) * t ≤ s then 1 else 0)
        (numOfSubarraysStepI arr k t) (fun p i => rfl) 0 j (by omega)]
    have hsucc := sumTake_succ arr j hjn
    have hw1 := sumTake_window arr (j + 1 - (j + 1 - k)) (j + 1 - k)
    rw [show j + 1 - k + (j + 1 - (j + 1 - k)) = j + 1 by omega] at hw1
    have hb1 := hseg (j + 1 - k) (by omega) (j + 1 - (j + 1 - k)) (by omega)
    have e1 : wrap32 ((arr.take j).sum - (arr.take (j + 1 - k)).sum +
        getI arr j) =
        (arr.take j).sum - (arr.take (j + 1 - k)).sum + getI arr j :=
      wrap32_eq_self _ (by omega) (by omega)
    simp only [numOfSubarraysStep, numOfSubarraysStepI, e1]
    by_cases hcase : j < k - 1
    · rw [if_pos hcase, if_pos hcase]
    · rw [if_neg hcase, if_neg hcase]
      have hsucc2 := sumTake_succ arr (j + 1 - k) (by omega)
      rw [show j + 1 - k + 1 = j + 2 - k by omega] at hsucc2
      have hw2 := sumTake_window arr (j + 1 - (j + 2 - k)) (j + 2 - k)
      rw [show j + 2 - k + (j + 1 - (j + 2 - k)) = j + 1 by omega] at hw2
      have hb2 := hseg (j + 2 - k) (by omega) (j + 1 - (j + 2 - k)) (by omega)
      have e2 : wrap32 ((k : Int) * t) = (k : Int) * t :=
        wrap32_eq_self _ hkt1 hkt2
      have e3 : wrap32 ((arr.take j).sum - (arr.take (j + 1 - k)).sum +
          getI arr j - getI arr (j + 1 - k)) =
          (arr.take j).sum - (arr.take (j + 1 - k)).sum + getI arr j -
            getI arr (j + 1 - k) :=
        wrap32_eq_self _ (by omega) (by omega)
      rw [e2, e3]

/-- The wrapped loop of 643 agrees with the idealised one when every sum
of at most `k` consecutive elements is a 32-bit value. -/
theorem findMaxAverage_eq_ideal (nums : List Int) (k : Nat) (hk : 1 ≤ k)
    (hseg : ∀ l, l ≤ nums.length → ∀ len, len ≤ k →
      -2147483648 ≤ (window nums len l).sum ∧
        (window nums len l).sum < 2147483648) :
    findMaxAverage nums k = findMaxAverageI nums k := by
  rw [findMaxAverage, findMaxAverageI]
  suffices h : ∀ j, j ≤ nums.length →
      (List.range j).foldl (findMaxAverageStep nums k) (-2147483648, 0) =
      (List.range j).foldl (findMaxAverageStepI nums k) (-2147483648, 0) by
    rw [h nums.length le_rfl]
  intro j
  induction j with
  | zero => intro _; rfl
  | succ j ih =>
    intro hj
    have hjn : j < nums.length := by omega
    rw [List.range_succ, List.foldl_append, List.foldl_append, ih (by omega),
      List.foldl_cons, List.foldl_cons, List.foldl_nil, List.foldl_nil,
      slide_foldl_spec nums k hk max (findMaxAverageStepI nums k)
        (fun p i => rfl) (-2147483648) j (by omega)]
    have hsucc := sumTake_succ nums j hjn
    have hw1 := sumTake_window nums (j + 1 - (j + 1 - k)) (j + 1 - k)
    rw [show j + 1 - k + (j + 1 - (j + 1 - k)) = j + 1 by omega] at hw1
    have hb1 := hseg (j + 1 - k) (by omega) (j + 1 - (j + 1 - k)) (by omega)
    have e1 : wrap32 ((nums.take j).sum - (nums.take (j + 1 - k)).sum +
        getI nums j) =
        (nums.take j).sum - (nums.take (j + 1 - k)).sum + getI nums j :=
      wrap32_eq_self _ (by omega) (by omega)
    simp only [findMaxAverageStep, findMaxAverageStepI, e1]
    by_cases hcase : j < k - 1
    · rw [if_pos hcase, if_pos hcase]
    · rw [if_neg hcase, if_neg hcase]
      have hsucc2 := sumTake_succ nums (j + 1 - k) (by omega)
      rw [show j + 1 - k + 1 = j + 2 - k by omega] at hsucc2
      have hw2 := sumTake_window nums (j + 1 - (j + 2 - k)) (j + 2 - k)
      rw [show j + 2 - k + (j + 1 - (j + 2 - k)) = j + 1 by omega] at hw2
      have hb2 := hseg (j + 2 - k) (by omega) (j + 1 - (j + 2 - k)) (by omega)
      have e3 : wrap32 ((nums.take j).sum - (nums.take (j + 1 - k)).sum +
          getI nums j - getI nums (j + 1 - k)) =
          (nums.take j).sum - (nums.take (j + 1 - k)).sum + getI nums j -
            getI nums (j + 1 - k) :=
        wrap32_eq_self _ (by omega) (by omega)
      rw [e3]

/-- The wrapped 1423 agrees with the idealised one when every
contiguous-segment sum is within half the 32-bit range (so every element
difference and every intermediate fits in `int`). -/
theorem maxScore_eq_ideal (cp : List Int) (k : Nat) (hkn : k ≤ cp.length)
    (hseg : ∀ l, l ≤ cp.length → ∀ len, len ≤ cp.length →
      -1073741824 ≤ (window cp len l).sum ∧ (window cp len l).sum < 1073741824) :
    maxScore cp k = maxScoreI cp k := by
  have hpre : ∀ j, j ≤ cp.length →
      -1073741824 ≤ (cp.take j).sum ∧ (cp.take j).sum < 1073741824 := by
    intro j hj
    have h := hseg 0 (by omega) j hj
    have hw : window cp j 0 = cp.take j := by simp [window]
    rw [hw] at h
    exact h
  have h1 : wrapSum (cp.take (cp.length - k)) = (cp.take (cp.length - k)).sum := by
    apply wrapSum_eq_sum
    intro j hj
    rw [List.length_take] at hj
    rw [List.take_take, show min j (cp.length - k) = j by omega]
    have := hpre j (by omega)
    constructor <;> omega
  have h2 : wrapSum cp = cp.sum := by
    apply wrapSum_eq_sum
    intro j hj
    have := hpre j hj
    constructor <;> omega
  rw [maxScore, maxScoreI, h1]
  have hfold : ∀ d, (cp.length - k) + d ≤ cp.length →
      (List.range' (cp.length - k) d).foldl (maxScoreStep cp (cp.length - k))
        ((cp.take (cp.length - k)).sum, (cp.take (cp.length - k)).sum) =
      (List.range' (cp.length - k) d).foldl (maxScoreStepI cp (cp.length - k))
        ((cp.take (cp.length - k)).sum, (cp.take (cp.length - k)).sum) := by
    intro d
    induction d with
    | zero => intro _; rfl
    | succ d ih =>
      intro hd
      have hkd : (cp.length - k) + d < cp.length := by omega
      have hdn : d < cp.length := by omega
      rw [List.range'_concat, one_mul, List.foldl_append, List.foldl_append,
        ih (by omega), List.foldl_cons, List.foldl_cons, List.foldl_nil,
        List.foldl_nil, maxScore_loop cp (cp.length - k) d (by omega)]
      have hgi := hseg ((cp.length - k) + d) (by omega) 1 (by omega)
      rw [window_one_sum cp _ hkd] at hgi
      have hgd := hseg d (by omega) 1 (by omega)
      rw [window_one_sum cp d hdn] at hgd
      have hsucc1 := sumTake_succ cp ((cp.length - k) + d) hkd
      have hsucc2 := sumTake_succ cp d hdn
      have hw3 := sumTake_window cp (cp.length - k) (d + 1)
      rw [show d + 1 + (cp.length - k) = (cp.length - k) + d + 1 by omega] at hw3
      have hb3 := hseg (d + 1) (by omega) (cp.length - k) (by omega)
      have ed : wrap32 (getI cp ((cp.length - k) + d) - getI cp d) =
          getI cp ((cp.length - k) + d) - getI cp d :=
        wrap32_eq_self _ (by omega) (by omega)
      have es : wrap32 ((cp.take ((cp.length - k) + d)).sum -
          (cp.take d).sum + (getI cp ((cp.length - k) + d) - getI cp d)) =
          (cp.take ((cp.length - k) + d)).sum - (cp.take d).sum +
            getI cp ((cp.length - k) + d) - getI cp d := by
        rw [wrap32_eq_self _ (by omega) (by omega)]
        ring
      simp only [maxScoreStep, maxScoreStepI,
        show (cp.length - k) + d - (cp.length - k) = d by omega, ed, es]
  rw [hfold (cp.length - (cp.length - k)) (by omega)]
  rw [maxScore_loop cp (cp.length - k) (cp.length - (cp.length - k)) (by omega)]
  rw [h2]
  have hne2 : ((List.range ((cp.length - (cp.length - k)) + 1)).map fun l =>
      (window cp (cp.length - k) l).sum) ≠ [] := by
    simp
  have hmem := listMin_mem _ hne2
  rcases List.mem_map.mp hmem with ⟨l, hl, hleq⟩
  have hbl := hseg l (by
    have := List.mem_range.mp hl
    omega) (cp.length - k) (by omega)
  rw [hleq] at hbl
  have hsn := hpre cp.length le_rfl
  rw [List.take_length] at hsn
  apply wrap32_eq_self <;> omega

end SlidingWindow

namespace SlidingWindow

/-! ## Boundary behaviour (k = n and k = 1) -/

theorem maxScoreI_full (cp : List Int) :
    maxScoreI cp cp.length = cp.sum := by
  rw [maxScoreI_spec cp cp.length le_rfl, bruteMaxScore]
  have hne2 : blockSums cp (cp.length - cp.length) ≠ [] := by
    rw [blockSums]
    simp
  have hz : listMin (blockSums cp (cp.length - cp.length)) = 0 := by
    have hmem := listMin_mem _ hne2
    rw [blockSums] at hmem
    rcases List.mem_map.mp hmem with ⟨l, _, hl⟩
    rw [blockSums, ← hl, show cp.length - cp.length = 0 by omega]
    simp [window]
  rw [hz]
  ring

theorem windowSums_full (nums : List Int) :
    windowSums nums nums.length = [nums.sum] := by
  rw [windowSums, show nums.length + 1 - nums.length = 1 by omega]
  simp [List.range_succ, window]

theorem findMaxAverageI_full (nums : List Int) (hne : nums ≠ [])
    (hbound : -2147483648 ≤ nums.sum) :
    findMaxAverageI nums nums.length = (nums.sum : ℚ) / (nums.length : ℚ) := by
  have hb : ∀ x ∈ windowSums nums nums.length, -2147483648 ≤ x := by
    intro x hx
    rw [windowSums_full] at hx
    rcases List.mem_singleton.mp hx with h
    rw [h]
    exact hbound
  rw [findMaxAverageI_eq_brute nums nums.length (List.length_pos.mpr hne) le_rfl hb,
    bruteFindMaxAverage, windowSums_full]
  rfl

theorem maxVowels_full (s : List Char) (hne : s ≠ []) :
    maxVowels s s.length = vowelCount s := by
  rw [maxVowels_eq_brute s s.length (List.length_pos.mpr hne) le_rfl,
    bruteMaxVowels, show s.length + 1 - s.length = 1 by omega]
  simp [List.range_succ, window, listMax]

theorem window_one_getC (s : List Char) (l : Nat) (h : l < s.length) :
    window s 1 l = [getC s l] := by
  rw [window, List.drop_eq_getElem_cons h]
  rw [getC, List.getD_eq_getElem?_getD, List.getElem?_eq_getElem h]
  rfl

theorem maxVowels_one (s : List Char) (hne : s ≠ []) :
    maxVowels s 1 = if s.any isVowel then 1 else 0 := by
  have hn : 1 ≤ s.length := List.length_pos.mpr hne
  rw [maxVowels_eq_brute s 1 le_rfl hn, bruteMaxVowels]
  have hlen : s.length + 1 - 1 = s.length := by omega
  rw [hlen]
  have hne2 : (List.range s.length).map
      (fun l => vowelCount (window s 1 l)) ≠ [] := by
    intro hmap
    have hlm := congrArg List.length hmap
    simp at hlm
    exact hne hlm
  by_cases hany : s.any isVowel
  · rw [if_pos hany]
    rcases List.any_eq_true.mp hany with ⟨c, hc, hvc⟩
    rcases List.getElem_of_mem hc with ⟨l, hl, hgl⟩
    have hv1 : vowelCount (window s 1 l) = 1 := by
      rw [window_one_getC s l hl, vowelCount]
      have : getC s l = c := by
        rw [getC, List.getD_eq_getElem?_getD, List.getElem?_eq_getElem hl, hgl]
        rfl
      rw [this]
      simp [hvc]
    apply le_antisymm
    · apply listMax_le _ _ hne2
      intro x hx
      rcases List.mem_map.mp hx with ⟨l2, _, hl2⟩
      rw [← hl2]
      exact_mod_cast vowelCount_window_le s 1 l2
    · rw [← hv1]
      exact le_listMax _ _ (List.mem_map.mpr ⟨l, List.mem_range.mpr hl, hv1 ▸ hv1 ▸ rfl⟩)
  · rw [if_neg hany]
    have hz : ∀ x ∈ (List.range s.length).map
        (fun l => vowelCount (window s 1 l)), x = 0 := by
      intro x hx
      rcases List.mem_map.mp hx with ⟨l, hl, hlx⟩
      rw [← hlx, vowelCount]
      have : (window s 1 l).countP isVowel = 0 := by
        apply List.countP_eq_zero.mpr
        intro c hc
        have hcs : c ∈ s := window_subset s 1 l c hc
        intro hvc
        exact hany (List.any_eq_true.mpr ⟨c, hcs, hvc⟩)
      rw [this]
      rfl
    exact hz _ (listMax_mem _ hne2)

/-! ## Wrap-level boundary behaviour -/

theorem maxScoreStep_zero (cp : List Int) :
    ∀ (idxs : List Nat), idxs.foldl (maxScoreStep cp 0) (0, 0) = (0, 0) := by
  intro idxs
  induction idxs with
  | nil => rfl
  | cons a l ih =>
    have h0 : maxScoreStep cp 0 (0, 0) a = (0, 0) := by
      simp [maxScoreStep, wrap32_zero]
    rw [List.foldl_cons, h0]
    exact ih

/-- At k = n, when every prefix sum is a 32-bit value, the wrapped
`maxScore` returns the whole-sequence total. -/
theorem maxScore_full (cp : List Int)
    (hpre : ∀ j, j ≤ cp.length →
      -2147483648 ≤ (cp.take j).sum ∧ (cp.take j).sum < 2147483648) :
    maxScore cp cp.length = cp.sum := by
  simp only [maxScore]
  rw [show cp.length - cp.length = 0 by omega, List.take_zero,
    show wrapSum ([] : List Int) = 0 from rfl,
    maxScoreStep_zero cp (List.range' 0 (cp.length - 0)),
    show ((0 : Int), (0 : Int)).1 = (0 : Int) from rfl, sub_zero,
    wrapSum_eq_sum cp hpre]
  have h := hpre cp.length le_rfl
  rw [List.take_length] at h
  exact wrap32_eq_self _ h.1 h.2

/-- At k = n, when every segment sum is a 32-bit value, the wrapped
`findMaxAverage` returns the whole-array mean. -/
theorem findMaxAverage_full (nums : List Int) (hne : nums ≠ [])
    (hseg : ∀ l, l ≤ nums.length → ∀ len, len ≤ nums.length →
      -2147483648 ≤ (window nums len l).sum ∧
        (window nums len l).sum < 2147483648) :
    findMaxAverage nums nums.length = (nums.sum : ℚ) / (nums.length : ℚ) := by
  rw [findMaxAverage_eq_ideal nums nums.length (List.length_pos.mpr hne) hseg]
  apply findMaxAverageI_full nums hne
  have h := hseg 0 (by omega) nums.length le_rfl
  have hw : window nums nums.length 0 = nums := by
    simp [window]
  rw [hw] at h
  omega

theorem bruteTakeEnds_one (cp : List Int) :
    bruteTakeEnds cp 1 =
      max ((cp.drop (cp.length - 1)).sum) ((cp.take 1).sum) := by
  rw [bruteTakeEnds, show List.range (1 + 1) = [0, 1] from by decide]
  simp [listMax, List.drop_length]

/-- At k = 1, under the half-range segment hypothesis, `maxScore` reduces to
the larger of the first and the last card. -/
theorem maxScore_one (cp : List Int) (hne : cp ≠ [])
    (hseg : ∀ l, l ≤ cp.length → ∀ len, len ≤ cp.length →
      -1073741824 ≤ (window cp len l).sum ∧ (window cp len l).sum < 1073741824) :
    maxScore cp 1 = max ((cp.drop (cp.length - 1)).sum) ((cp.take 1).sum) := by
  have hn : 1 ≤ cp.length := List.length_pos.mpr hne
  rw [maxScore_eq_ideal cp 1 hn hseg, maxScoreI_spec cp 1 hn,
    ← bruteTakeEnds_eq cp 1 hn, bruteTakeEnds_one]

theorem windowSums_one (nums : List Int) : windowSums nums 1 = nums := by
  rw [windowSums, show nums.length + 1 - 1 = nums.length by omega]
  apply List.ext_getElem
  · simp
  · intro i h1 h2
    rw [List.getElem_map, List.getElem_range, window_one_sum nums i h2,
      getI, List.getD_eq_getElem?_getD, List.getElem?_eq_getElem h2]
    rfl

/-- At k = 1, when every element is a 32-bit value, `findMaxAverage`
reduces to the per-element scan: the maximum element. -/
theorem findMaxAverage_one (nums : List Int) (hne : nums ≠ [])
    (hseg : ∀ l, l ≤ nums.length → ∀ len, len ≤ 1 →
      -2147483648 ≤ (window nums len l).sum ∧
        (window nums len l).sum < 2147483648) :
    findMaxAverage nums 1 = (listMax nums : ℚ) := by
  have hb : ∀ x ∈ windowSums nums 1, -2147483648 ≤ x := by
    intro x hx
    rw [windowSums_one] at hx
    rcases List.getElem_of_mem hx with ⟨i, hi, hgi⟩
    have hbd := hseg i (by omega) 1 le_rfl
    rw [window_one_sum nums i hi] at hbd
    have hg : getI nums i = x := by
      rw [getI, List.getD_eq_getElem?_getD, List.getElem?_eq_getElem hi, hgi]
      rfl
    omega
  rw [findMaxAverage_eq_ideal nums 1 le_rfl hseg,
    findMaxAverageI_eq_brute nums 1 le_rfl (List.length_pos.mpr hne) hb,
    bruteFindMaxAverage, windowSums_one]
  norm_num

/-! ## Option-indexed variants: every `v[i]` access through `l[i]?` -/

theorem getI_some (xs : List Int) (i : Nat) (h : i < xs.length) :
    xs[i]? = some (getI xs i) := by
  rw [List.getElem?_eq_getElem h, getI, List.getD_eq_getElem?_getD,
    List.getElem?_eq_getElem h]
  rfl

theorem getC_some (s : List Char) (i : Nat) (h : i < s.length) :
    s[i]? = some (getC s i) := by
  rw [List.getElem?_eq_getElem h, getC, List.getD_eq_getElem?_getD,
    List.getElem?_eq_getElem h]
  rfl

/-- Folding an Option-threaded step agrees with the total step when the
step never fails on the traversed indices. -/
theorem foldl_opt_some {σ : Type} (step : σ → Nat → σ)
    (stepO : Option σ → Nat → Option σ) :
    ∀ (idxs : List Nat),
      (∀ p i, i ∈ idxs → stepO (some p) i = some (step p i)) →
      ∀ init : σ, idxs.foldl stepO (some init) = some (idxs.foldl step init) := by
  intro idxs
  induction idxs with
  | nil => intro _ init; rfl
  | cons a l ih =>
    intro h init
    rw [List.foldl_cons, List.foldl_cons, h init a (List.mem_cons_self a l)]
    exact ih (fun p i hi => h p i (List.mem_cons_of_mem a hi)) (step init a)

/-- `maxVowels` with checked indexing. -/
def maxVowelsChkGo (s : List Char) (k : Nat) :
    Nat → Int → Int → List Char → Option Int
  | _, ans, _, [] => some ans
  | i, ans, yuanyin, c :: rest =>
    let yuanyin := if isVowel c then yuanyin + 1 else yuanyin
    if i + 1 < k then maxVowelsChkGo s k (i + 1) ans yuanyin rest
    else
      let ans := max ans yuanyin
      if ans = (k : Int) then some ans
      else
        (s[i + 1 - k]?).bind fun cl =>
          maxVowelsChkGo s k (i + 1) ans
            (if isVowel cl then yuanyin - 1 else yuanyin) rest

def maxVowelsChk (s : List Char) (k : Nat) : Option Int :=
  maxVowelsChkGo s k 0 0 0 s

theorem maxVowelsChkGo_eq (s : List Char) (k : Nat) (hk : 1 ≤ k) :
    ∀ (rest : List Char) (i : Nat) (ans yuanyin : Int), rest = s.drop i →
      maxVowelsChkGo s k i ans yuanyin rest =
        some (maxVowelsGo s k i ans yuanyin rest) := by
  intro rest
  induction rest with
  | nil => intro i ans yy _; rfl
  | cons c rest ih =>
    intro i ans yy hdrop
    have hin : i < s.length := by
      by_contra hc
      rw [List.drop_eq_nil_of_le (by omega)] at hdrop
      exact List.noConfusion hdrop
    have hrest : rest = s.drop (i + 1) := by
      have hget := List.drop_eq_getElem_cons hin
      rw [hget] at hdrop
      injection hdrop with h1 h2
    simp only [maxVowelsChkGo, maxVowelsGo]
    by_cases hlt : i + 1 < k
    · rw [if_pos hlt, if_pos hlt, ih (i + 1) ans _ hrest]
    · rw [if_neg hlt, if_neg hlt]
      by_cases hbreak : max ans (if isVowel c then yy + 1 else yy) = (k : Int)
      · rw [if_pos hbreak, if_pos hbreak]
      · rw [if_neg hbreak, if_neg hbreak,
          getC_some s (i + 1 - k) (by omega), Option.some_bind,
          ih (i + 1) _ _ hrest]

theorem maxVowelsChk_eq (s : List Char) (k : Nat) (hk : 1 ≤ k) :
    maxVowelsChk s k = some (maxVowels s k) :=
  maxVowelsChkGo_eq s k hk s 0 0 0 rfl

/-- `minimumRecolors` with checked indexing. -/
def minimumRecolorsInitChk (blocks : List Char) (k : Nat) : Option Int :=
  (List.range k).foldl (fun o i => o.bind fun cntW => (blocks[i]?).map fun c =>
    if c = 'W' then cntW + 1 else cntW) (some 0)

def minimumRecolorsStepChk (blocks : List Char) (k : Nat)
    (p : Option (Int × Int)) (r : Nat) : Option (Int × Int) :=
  p.bind fun q => (blocks[r]?).bind fun cr => (blocks[r - k]?).map fun cl =>
    let cntW := if cr = 'W' then q.1 + 1 else q.1
    let cntW := if cl = 'W' then cntW - 1 else cntW
    (cntW, min q.2 cntW)

def minimumRecolorsChk (blocks : List Char) (k : Nat) : Option Int :=
  let n := blocks.length
  (minimumRecolorsInitChk blocks k).bind fun cntW =>
    ((List.range' k (n - k)).foldl (minimumRecolorsStepChk blocks k)
      (some (cntW, cntW))).map (fun q => q.2)

theorem minimumRecolorsChk_eq (blocks : List Char) (k : Nat) (hk : 1 ≤ k)
    (hkn : k ≤ blocks.length) :
    minimumRecolorsChk blocks k = some (minimumRecolors blocks k) := by
  have hinit : minimumRecolorsInitChk blocks k = some (minimumRecolorsInit blocks k) := by
    rw [minimumRecolorsInitChk, minimumRecolorsInit]
    apply foldl_opt_some
    intro p i hi
    have hik : i < blocks.length := by
      have := List.mem_range.mp hi
      omega
    rw [Option.some_bind, getC_some blocks i hik]
    rfl
  have hloop := foldl_opt_some (minimumRecolorsStep blocks k)
    (minimumRecolorsStepChk blocks k) (List.range' k (blocks.length - k))
    (fun p r hr => by
      have hrange := List.mem_range'_1.mp hr
      have hr1 : r < blocks.length := by omega
      have hr2 : r - k < blocks.length := by omega
      rw [minimumRecolorsStepChk, Option.some_bind, getC_some blocks r hr1,
        Option.some_bind, getC_some blocks (r - k) hr2]
      rfl)
  rw [minimumRecolorsChk, minimumRecolors, hinit, Option.some_bind, hloop]
  rfl

/-- `numOfSubarrays` with checked indexing. -/
def numOfSubarraysStepChk (arr : List Int) (k : Nat) (threshold : Int)
    (p : Option (Int × Int)) (i : Nat) : Option (Int × Int) :=
  p.bind fun q => (arr[i]?).bind fun x =>
    let s := wrap32 (q.2 + x)
    if i < k - 1 then some (q.1, s)
    else (arr[i + 1 - k]?).map fun y =>
      (q.1 + if wrap32 ((k : Int) * threshold) ≤ s then 1 else 0, wrap32 (s - y))

def numOfSubarraysChk (arr : List Int) (k : Nat) (threshold : Int) : Option Int :=
  ((List.range arr.length).foldl (numOfSubarraysStepChk arr k threshold)
    (some (0, 0))).map (fun q => q.1)

theorem numOfSubarraysChk_eq (arr : List Int) (k : Nat) (t : Int) (hk : 1 ≤ k) :
    numOfSubarraysChk arr k t = some (numOfSubarrays arr k t) := by
  have hloop := foldl_opt_some (numOfSubarraysStep arr k t)
    (numOfSubarraysStepChk arr k t) (List.range arr.length)
    (fun p i hi => by
      have hin : i < arr.length := List.mem_range.mp hi
      rw [numOfSubarraysStepChk, Option.some_bind, getI_some arr i hin,
        Option.some_bind]
      by_cases hcase : i < k - 1
      · rw [if_pos hcase, numOfSubarraysStep, if_pos hcase]
      · rw [if_neg hcase, getI_some arr (i + 1 - k) (by omega)]
        rw [numOfSubarraysStep, if_neg hcase]
        rfl)
  rw [numOfSubarraysChk, numOfSubarrays, hloop]
  rfl

/-- `maxScore` with checked indexing. -/
def maxScoreStepChk (cardPoints : List Int) (m : Nat)
    (p : Option (Int × Int)) (i : Nat) : Option (Int × Int) :=
  p.bind fun q => (cardPoints[i]?).bind fun x => (cardPoints[i - m]?).map fun y =>
    let s := wrap32 (q.2 + wrap32 (x - y))
    (min q.1 s, s)

def maxScoreChk (cardPoints : List Int) (k : Nat) : Option Int :=
  let n := cardPoints.length
  let m := n - k
  ((List.range m).foldl (fun o i => o.bind fun a =>
    (cardPoints[i]?).map fun x => wrap32 (a + x)) (some 0)).bind fun s =>
  (((List.range' m (n - m)).foldl (maxScoreStepChk cardPoints m)
    (some (s, s))).map (fun q => q.1)).map fun min_s =>
      wrap32 (wrapSum cardPoints - min_s)

theorem foldl_getI_wrapSum (xs : List Int) : ∀ j, j ≤ xs.length →
    (List.range j).foldl (fun a i => wrap32 (a + getI xs i)) 0 =
      wrapSum (xs.take j) := by
  intro j
  induction j with
  | zero => intro _; rfl
  | succ j ih =>
    intro hj
    have h1 : j < xs.length := by omega
    have htake : xs.take (j + 1) = xs.take j ++ [xs[j]] := by
      rw [List.take_succ, List.getElem?_eq_getElem h1]
      rfl
    have hgi : getI xs j = xs[j] := by
      rw [getI, List.getD_eq_getElem?_getD, List.getElem?_eq_getElem h1]
      rfl
    rw [List.range_succ, List.foldl_append, ih (by omega), List.foldl_cons,
      List.foldl_nil, htake, hgi, wrapSum, wrapSum, List.foldl_append,
      List.foldl_cons, List.foldl_nil]

theorem maxScoreChk_eq (cp : List Int) (k : Nat) (hkn : k ≤ cp.length) :
    maxScoreChk cp k = some (maxScore cp k) := by
  have hinit := foldl_opt_some (fun a i => wrap32 (a + getI cp i))
    (fun o i => o.bind fun a => (cp[i]?).map fun x => wrap32 (a + x))
    (List.range (cp.length - k))
    (fun a i hi => by
      have hin : i < cp.length := by
        have := List.mem_range.mp hi
        omega
      simp [getI_some cp i hin]) 0
  have hloop := foldl_opt_some (maxScoreStep cp (cp.length - k))
    (maxScoreStepChk cp (cp.length - k))
    (List.range' (cp.length - k) (cp.length - (cp.length - k)))
    (fun p i hi => by
      have hrange := List.mem_range'_1.mp hi
      have hi1 : i < cp.length := by omega
      have hi2 : i - (cp.length - k) < cp.length := by omega
      rw [maxScoreStepChk, Option.some_bind, getI_some cp i hi1,
        Option.some_bind, getI_some cp (i - (cp.length - k)) hi2]
      rfl)
  rw [maxScoreChk, maxScore, hinit, foldl_getI_wrapSum cp (cp.length - k) (by omega),
    Option.some_bind, hloop]
  rfl

/-- `maximumSubarraySum` with checked indexing. -/
def maximumSubarraySumStepChk (nums : List Int) (k : Nat)
    (p : Option (Int × Int × List Int)) (i : Nat) :
    Option (Int × Int × List Int) :=
  p.bind fun q => (nums[i]?).bind fun x =>
    let s := q.2.1 + x
    let cnt := x :: q.2.2
    if i + 1 < k then some (q.1, s, cnt)
    else
      (nums[i + 1 - k]?).map fun out =>
        ((if cnt.dedup.length = k then max q.1 s else q.1), s - out,
          cnt.erase out)

def maximumSubarraySumChk (nums : List Int) (k : Nat) : Option Int :=
  ((List.range nums.length).foldl (maximumSubarraySumStepChk nums k)
    (some (0, 0, []))).map (fun q => q.1)

theorem maximumSubarraySumChk_eq (nums : List Int) (k : Nat) (hk : 1 ≤ k) :
    maximumSubarraySumChk nums k = some (maximumSubarraySum nums k) := by
  have hloop := foldl_opt_some (maximumSubarraySumStep nums k)
    (maximumSubarraySumStepChk nums k) (List.range nums.length)
    (fun p i hi => by
      have hin : i < nums.length := List.mem_range.mp hi
      rw [maximumSubarraySumStepChk, Option.some_bind, getI_some nums i hin,
        Option.some_bind]
      by_cases hcase : i + 1 < k
      · rw [if_pos hcase, maximumSubarraySumStep, if_pos hcase]
      · rw [if_neg hcase, getI_some nums (i + 1 - k) (by omega)]
        rw [maximumSubarraySumStep, if_neg hcase]
        rfl)
  rw [maximumSubarraySumChk, maximumSubarraySum, hloop]
  rfl

/-- `findMaxAverage` with checked indexing. -/
def findMaxAverageStepChk (nums : List Int) (k : Nat)
    (p : Option (Int × Int)) (i : Nat) : Option (Int × Int) :=
  p.bind fun q => (nums[i]?).bind fun x =>
    let s := wrap32 (q.2 + x)
    if i < k - 1 then some (q.1, s)
    else (nums[i + 1 - k]?).map fun y => (max q.1 s, wrap32 (s - y))

def findMaxAverageChk (nums : List Int) (k : Nat) : Option ℚ :=
  (((List.range nums.length).foldl (findMaxAverageStepChk nums k)
    (some (-2147483648, 0))).map (fun q => q.1)).map fun max_s =>
      (max_s : ℚ) / (k : ℚ)

theorem findMaxAverageChk_eq (nums : List Int) (k : Nat) (hk : 1 ≤ k) :
    findMaxAverageChk nums k = some (findMaxAverage nums k) := by
  have hloop := foldl_opt_some (findMaxAverageStep nums k)
    (findMaxAverageStepChk nums k) (List.range nums.length)
    (fun p i hi => by
      have hin : i < nums.length := List.mem_range.mp hi
      rw [findMaxAverageStepChk, Option.some_bind, getI_some nums i hin,
        Option.some_bind]
      by_cases hcase : i < k - 1
      · rw [if_pos hcase, findMaxAverageStep, if_pos hcase]
      · rw [if_neg hcase, getI_some nums (i + 1 - k) (by omega)]
        rw [findMaxAverageStep, if_neg hcase]
        rfl)
  rw [findMaxAverageChk, findMaxAverage, hloop]
  rfl

/-! ## Claim theorems -/

/-- C1 counterexample: the claim fails twice over.  On nums = [-1], k = 1
the only window is all-distinct with sum -1, so the brute-force value is
-1, but the code returns 0 because its answer accumulator starts at 0.
And on arr = [1073741825, 1073741824], k = 2, threshold = 0 the `int`
window sum 2^31 + 1 wraps to a negative value, so the code counts 0
windows while the brute-force count is 1. -/
theorem c1_counterexample :
    maximumSubarraySum [-1] 1 ≠ bruteDistinctMax [-1] 1 ∧
    numOfSubarrays [1073741825, 1073741824] 2 0 ≠
      bruteNumOfSubarrays [1073741825, 1073741824] 2 0 := by
  constructor
  · decide
  · have hc : numOfSubarrays [1073741825, 1073741824] 2 0 = 0 := by decide
    have hq : ((0 : Int) : ℚ) ≤
        (((window [1073741825, 1073741824] 2 0).sum : Int) : ℚ) /
          ((2 : Nat) : ℚ) := by
      rw [show (window [1073741825, 1073741824] 2 0).sum = (2147483649 : Int)
        from by decide]
      norm_num
    have hb : bruteNumOfSubarrays [1073741825, 1073741824] 2 0 = 1 := by
      rw [bruteNumOfSubarrays,
        show List.range (([1073741825, 1073741824] : List Int).length + 1 - 2) =
          [0] from by decide,
        List.filter_cons_of_pos (by simpa using hq), List.filter_nil]
      rfl
    rw [hc, hb]
    decide

/-- C1 (amended): each sliding-window function matches its brute-force
recomputation: `maxVowels` is the brute-force maximum vowel count despite
the early break; `maximumSubarraySum` is the brute-force all-distinct
maximum clamped below at 0 (the accumulator starts at 0); and
`numOfSubarrays` is the brute-force threshold count provided every sum of
at most `k` consecutive elements and the `int` product `k * threshold`
stay within the 32-bit range (its running `int` sum wraps otherwise). -/
theorem c1_sliding_equals_brute :
    (∀ (s : List Char) (k : Nat), 1 ≤ k → k ≤ s.length →
      maxVowels s k = bruteMaxVowels s k) ∧
    (∀ (nums : List Int) (k : Nat), 1 ≤ k → k ≤ nums.length →
      maximumSubarraySum nums k = max 0 (bruteDistinctMax nums k)) ∧
    (∀ (arr : List Int) (k : Nat) (t : Int), 1 ≤ k → k ≤ arr.length →
      (∀ l, l ≤ arr.length → ∀ len, len ≤ k →
        -2147483648 ≤ (window arr len l).sum ∧
          (window arr len l).sum < 2147483648) →
      -2147483648 ≤ (k : Int) * t → (k : Int) * t < 2147483648 →
      numOfSubarrays arr k t = bruteNumOfSubarrays arr k t) :=
  ⟨maxVowels_eq_brute,
   fun nums k hk _ => maximumSubarraySum_eq_brute nums k hk,
   fun arr k t hk _ hseg h1 h2 =>
     (numOfSubarrays_eq_ideal arr k t hk hseg h1 h2).trans
       (numOfSubarraysI_eq_brute arr k t hk)⟩

/-- C1 witness at concrete inputs. -/
theorem c1_sliding_equals_brute_witness :
    maxVowels ('a' :: 'b' :: 'c' :: []) 2 =
      bruteMaxVowels ('a' :: 'b' :: 'c' :: []) 2 ∧
    maximumSubarraySum [1, 5, 4] 2 = max 0 (bruteDistinctMax [1, 5, 4] 2) ∧
    numOfSubarrays [2, 2, 5] 2 3 = bruteNumOfSubarrays [2, 2, 5] 2 3 :=
  ⟨c1_sliding_equals_brute.1 _ 2 (by decide) (by decide),
   c1_sliding_equals_brute.2.1 _ 2 (by decide) (by decide),
   c1_sliding_equals_brute.2.2 _ 2 3 (by decide) (by decide) (by decide)
     (by decide) (by decide)⟩

/-- C2 counterexample: on cardPoints = [2^30, 2^30, 2^30, -2^30], k = 2 the
`int` accumulations of `reduce` and of the sliding block sum wrap, and the
code returns 0, while the true maximum from taking two cards from either
end is 2^31. -/
theorem c2_counterexample :
    maxScore [1073741824, 1073741824, 1073741824, -1073741824] 2 ≠
      bruteTakeEnds [1073741824, 1073741824, 1073741824, -1073741824] 2 := by
  decide

/-- C2 (amended): provided every contiguous-segment sum of cardPoints lies
within half the 32-bit range (so every `int` intermediate, including the
element differences, stays in range), `maxScore` returns the maximum total
from taking k cards from either end and equals the complement formulation
total minus minimum (n-k)-block; the spec example gives 202. -/
theorem c2_maxScore_amended :
    (∀ (cp : List Int) (k : Nat), 1 ≤ k → k ≤ cp.length →
      (∀ l, l ≤ cp.length → ∀ len, len ≤ cp.length →
        -1073741824 ≤ (window cp len l).sum ∧
          (window cp len l).sum < 1073741824) →
      maxScore cp k = bruteTakeEnds cp k ∧
      maxScore cp k = cp.sum - listMin (blockSums cp (cp.length - k))) ∧
    maxScore [1, 79, 80, 1, 1, 1, 200, 1] 3 = 202 := by
  constructor
  · intro cp k hk hkn hseg
    have h := (maxScore_eq_ideal cp k hkn hseg).trans (maxScoreI_spec cp k hkn)
    exact ⟨h.trans (bruteTakeEnds_eq cp k hkn).symm, h⟩
  · decide

/-- C2 witness at the spec example. -/
theorem c2_maxScore_amended_witness :
    maxScore [1, 79, 80, 1, 1, 1, 200, 1] 3 =
      bruteTakeEnds [1, 79, 80, 1, 1, 1, 200, 1] 3 :=
  (c2_maxScore_amended.1 _ 3 (by decide) (by decide) (by decide)).1

/-- C3 counterexample: on nums = [-1, -2], k = 2 the only window is
all-distinct with sum -3, so the claimed value is -3, but the code
returns 0. -/
theorem c3_counterexample :
    maximumSubarraySum [-1, -2] 2 ≠ bruteDistinctMax [-1, -2] 2 := by decide

/-- C3 (amended): `maximumSubarraySum` returns the maximum of 0 and the
maximum sum among all-distinct windows (so 0 both when no such window
exists and when every qualifying window has negative sum); the two spec
examples hold. -/
theorem c3_maximumSubarraySum_clamped :
    (∀ (nums : List Int) (k : Nat), 1 ≤ k → k ≤ nums.length →
      maximumSubarraySum nums k = max 0 (bruteDistinctMax nums k)) ∧
    maximumSubarraySum [1, 5, 4, 2, 9, 9, 9] 3 = 15 ∧
    maximumSubarraySum [4, 4, 4] 3 = 0 :=
  ⟨fun nums k hk _ => maximumSubarraySum_eq_brute nums k hk,
   by decide, by decide⟩

/-- C3 witness at a concrete input. -/
theorem c3_maximumSubarraySum_clamped_witness :
    maximumSubarraySum [4, 4, 4] 3 = max 0 (bruteDistinctMax [4, 4, 4] 3) :=
  c3_maximumSubarraySum_clamped.1 _ 3 (by decide) (by decide)

/-- C4 counterexample: on arr = [2^30, 2^30], k = 2, threshold = 0 the
`int` window sum 2^31 wraps to -2^31, so the code counts 0 windows while
the window's true mean 2^30 is at least the threshold. -/
theorem c4_counterexample :
    numOfSubarrays [1073741824, 1073741824] 2 0 ≠
      bruteNumOfSubarrays [1073741824, 1073741824] 2 0 := by
  have hc : numOfSubarrays [1073741824, 1073741824] 2 0 = 0 := by decide
  have hq : ((0 : Int) : ℚ) ≤
      (((window [1073741824, 1073741824] 2 0).sum : Int) : ℚ) /
        ((2 : Nat) : ℚ) := by
    rw [show (window [1073741824, 1073741824] 2 0).sum = (2147483648 : Int)
      from by decide]
    norm_num
  have hb : bruteNumOfSubarrays [1073741824, 1073741824] 2 0 = 1 := by
    rw [bruteNumOfSubarrays,
      show List.range (([1073741824, 1073741824] : List Int).length + 1 - 2) =
        [0] from by decide,
      List.filter_cons_of_pos (by simpa using hq), List.filter_nil]
    rfl
  rw [hc, hb]
  decide

/-- C4 (amended): provided every sum of at most `k` consecutive elements
and the `int` product `k * threshold` stay within the 32-bit range,
`numOfSubarrays` counts the windows whose mean is at least the threshold,
via the equivalent integer test sum ≥ k * threshold; the spec example
gives 3. -/
theorem c4_numOfSubarrays_amended :
    (∀ (arr : List Int) (k : Nat) (t : Int), 1 ≤ k → k ≤ arr.length →
      (∀ l, l ≤ arr.length → ∀ len, len ≤ k →
        -2147483648 ≤ (window arr len l).sum ∧
          (window arr len l).sum < 2147483648) →
      -2147483648 ≤ (k : Int) * t → (k : Int) * t < 2147483648 →
      numOfSubarrays arr k t = bruteNumOfSubarrays arr k t ∧
      numOfSubarrays arr k t =
        (((List.range (arr.length + 1 - k)).filter fun l =>
          decide ((k : Int) * t ≤ (window arr k l).sum)).length : Nat)) ∧
    numOfSubarrays [2, 2, 2, 2, 5, 5, 5, 8] 3 4 = 3 := by
  constructor
  · intro arr k t hk hkn hseg h1 h2
    have hI := numOfSubarrays_eq_ideal arr k t hk hseg h1 h2
    exact ⟨hI.trans (numOfSubarraysI_eq_brute arr k t hk),
      hI.trans (numOfSubarraysI_count arr k t hk)⟩
  · decide

/-- C4 witness at a concrete input. -/
theorem c4_numOfSubarrays_amended_witness :
    numOfSubarrays [7, 1] 1 5 = bruteNumOfSubarrays [7, 1] 1 5 :=
  (c4_numOfSubarrays_amended.1 _ 1 5 (by decide) (by decide) (by decide)
    (by decide) (by decide)).1

/-- C5: `maxVowels` returns the maximum vowel count over all length-k
windows, and gives 3 on "abciiidef" with k = 3. -/
theorem c5_maxVowels_correct :
    (∀ (s : List Char) (k : Nat), 1 ≤ k → k ≤ s.length →
      maxVowels s k = bruteMaxVowels s k) ∧
    maxVowels "abciiidef".toList 3 = 3 :=
  ⟨maxVowels_eq_brute, by decide⟩

/-- C5 witness at the spec example. -/
theorem c5_maxVowels_correct_witness :
    maxVowels "abciiidef".toList 3 = bruteMaxVowels "abciiidef".toList 3 :=
  c5_maxVowels_correct.1 _ 3 (by decide) (by decide)

/-- C6: over the alphabet \x7b'W','B'\x7d, `minimumRecolors` returns the
minimum non-'B' count over all length-k windows, both copies of the file
agree, and the spec example gives 3. -/
theorem c6_minimumRecolors_correct :
    (∀ (blocks : List Char) (k : Nat), (∀ c ∈ blocks, c = 'W' ∨ c = 'B') →
      1 ≤ k → k ≤ blocks.length →
      minimumRecolors blocks k = bruteMinimumRecolors blocks k ∧
      minimumRecolorsB blocks k = minimumRecolors blocks k) ∧
    minimumRecolors "WBBWWBBWBW".toList 7 = 3 ∧
    minimumRecolorsB "WBBWWBBWBW".toList 7 = 3 :=
  ⟨fun blocks k hWB hk hkn =>
    ⟨minimumRecolors_eq_brute blocks k hk hkn hWB, minimumRecolorsB_eq blocks k⟩,
   by decide, by decide⟩

/-- C6 witness at the spec example. -/
theorem c6_minimumRecolors_correct_witness :
    minimumRecolors "WBBWWBBWBW".toList 7 =
      bruteMinimumRecolors "WBBWWBBWBW".toList 7 :=
  (c6_minimumRecolors_correct.1 _ 7 (by decide) (by decide) (by decide)).1

/-- C7 counterexample: on nums = [2^30, 2^30, 2^30], k = 2 (each element a
valid 32-bit int) every `int` window sum 2^31 wraps to -2^31, so the code
returns -2^30 as the average instead of the true maximum average 2^30. -/
theorem c7_counterexample :
    findMaxAverage [1073741824, 1073741824, 1073741824] 2 ≠
      bruteFindMaxAverage [1073741824, 1073741824, 1073741824] 2 := by
  have hm : ((List.range
      (([1073741824, 1073741824, 1073741824] : List Int).length)).foldl
      (findMaxAverageStep [1073741824, 1073741824, 1073741824] 2)
      (-2147483648, 0)).1 = (-2147483648 : Int) := by decide
  have hb : listMax (windowSums [1073741824, 1073741824, 1073741824] 2) =
      (2147483648 : Int) := by decide
  simp only [findMaxAverage, bruteFindMaxAverage]
  rw [hm, hb]
  norm_num

/-- C7 (amended): provided every sum of at most `k` consecutive elements
stays within the 32-bit range (so the running `int` sum never wraps, and
every window sum clears the INT_MIN seed of `max_s`), `findMaxAverage`
returns the maximum window sum — an exact integer — divided by `k`; the
spec example gives 12.75. -/
theorem c7_findMaxAverage_amended :
    (∀ (nums : List Int) (k : Nat), 1 ≤ k → k ≤ nums.length →
      (∀ l, l ≤ nums.length → ∀ len, len ≤ k →
        -2147483648 ≤ (window nums len l).sum ∧
          (window nums len l).sum < 2147483648) →
      findMaxAverage nums k = bruteFindMaxAverage nums k) ∧
    findMaxAverage [1, 12, -5, -6, 50, 3] 4 = 12.75 := by
  constructor
  · intro nums k hk hkn hseg
    have hb : ∀ x ∈ windowSums nums k, -2147483648 ≤ x := by
      intro x hx
      rw [windowSums] at hx
      rcases List.mem_map.mp hx with ⟨l, hl, hleq⟩
      have hbd := hseg l (by
        have := List.mem_range.mp hl
        omega) k le_rfl
      omega
    rw [findMaxAverage_eq_ideal nums k hk hseg,
      findMaxAverageI_eq_brute nums k hk hkn hb]
  · have hm : ((List.range (([1, 12, -5, -6, 50, 3] : List Int).length)).foldl
        (findMaxAverageStep [1, 12, -5, -6, 50, 3] 4) (-2147483648, 0)).1 =
        (51 : Int) := by decide
    simp only [findMaxAverage]
    rw [hm]
    norm_num

/-- C7 witness at a concrete input. -/
theorem c7_findMaxAverage_amended_witness :
    findMaxAverage [1, 12, -5, -6, 50, 3] 4 =
      bruteFindMaxAverage [1, 12, -5, -6, 50, 3] 4 :=
  c7_findMaxAverage_amended.1 _ 4 (by decide) (by decide) (by decide)

/-- C8 counterexample: on nums = [2^30, 2^30] and k = n = 2 the whole-array
`int` sum 2^31 wraps to -2^31, and `findMaxAverage` does not return the
mean of the whole array. -/
theorem c8_counterexample :
    findMaxAverage [1073741824, 1073741824] 2 ≠
      ((([1073741824, 1073741824] : List Int).sum : ℚ) /
        (([1073741824, 1073741824] : List Int).length : ℚ)) := by
  have hm : ((List.range (([1073741824, 1073741824] : List Int).length)).foldl
      (findMaxAverageStep [1073741824, 1073741824] 2) (-2147483648, 0)).1 =
      (-2147483648 : Int) := by decide
  have hs : ([1073741824, 1073741824] : List Int).sum = (2147483648 : Int) := by
    decide
  have hl : ([1073741824, 1073741824] : List Int).length = 2 := rfl
  simp only [findMaxAverage]
  rw [hm, hs, hl]
  norm_num

/-- C8 (amended): for non-empty inputs, at k = n `maxScore` returns the
total sum when every prefix sum fits in `int`, `maxVowels` returns the
vowel count of the whole string, and `findMaxAverage` returns the
whole-array mean when every segment sum fits in `int`; at k = 1
`maxVowels` returns 1 if some character is a vowel and 0 otherwise,
`maxScore` returns the larger of the first and last card under the
half-range segment hypothesis, and `findMaxAverage` returns the maximum
element when every element fits in `int`. -/
theorem c8_boundary_amended :
    (∀ cp : List Int, cp ≠ [] →
      (∀ j, j ≤ cp.length →
        -2147483648 ≤ (cp.take j).sum ∧ (cp.take j).sum < 2147483648) →
      maxScore cp cp.length = cp.sum) ∧
    (∀ nums : List Int, nums ≠ [] →
      (∀ l, l ≤ nums.length → ∀ len, len ≤ nums.length →
        -2147483648 ≤ (window nums len l).sum ∧
          (window nums len l).sum < 2147483648) →
      findMaxAverage nums nums.length = (nums.sum : ℚ) / (nums.length : ℚ)) ∧
    (∀ s : List Char, s ≠ [] → maxVowels s s.length = vowelCount s) ∧
    (∀ s : List Char, s ≠ [] → maxVowels s 1 = if s.any isVowel then 1 else 0) ∧
    (∀ cp : List Int, cp ≠ [] →
      (∀ l, l ≤ cp.length → ∀ len, len ≤ cp.length →
        -1073741824 ≤ (window cp len l).sum ∧
          (window cp len l).sum < 1073741824) →
      maxScore cp 1 = max ((cp.drop (cp.length - 1)).sum) ((cp.take 1).sum)) ∧
    (∀ nums : List Int, nums ≠ [] →
      (∀ l, l ≤ nums.length → ∀ len, len ≤ 1 →
        -2147483648 ≤ (window nums len l).sum ∧
          (window nums len l).sum < 2147483648) →
      findMaxAverage nums 1 = (listMax nums : ℚ)) :=
  ⟨fun cp _ hpre => maxScore_full cp hpre,
   findMaxAverage_full, maxVowels_full, maxVowels_one, maxScore_one,
   findMaxAverage_one⟩

/-- C8 witness at concrete inputs. -/
theorem c8_boundary_amended_witness :
    maxScore [3, 4] 2 = ([3, 4] : List Int).sum ∧
    findMaxAverage [3, 4] 2 =
      ((([3, 4] : List Int).sum : ℚ) / (([3, 4] : List Int).length : ℚ)) ∧
    maxVowels ('a' :: 'b' :: []) 2 = vowelCount ('a' :: 'b' :: []) ∧
    maxVowels ('a' :: 'b' :: []) 1 =
      (if ('a' :: 'b' :: []).any isVowel then 1 else 0) ∧
    maxScore [3, 4] 1 =
      max ((([3, 4] : List Int).drop (([3, 4] : List Int).length - 1)).sum)
        ((([3, 4] : List Int).take 1).sum) ∧
    findMaxAverage [3, 4] 1 = (listMax [3, 4] : ℚ) :=
  ⟨c8_boundary_amended.1 [3, 4] (by decide) (by decide),
   c8_boundary_amended.2.1 [3, 4] (by decide) (by decide),
   c8_boundary_amended.2.2.1 _ (by decide),
   c8_boundary_amended.2.2.2.1 _ (by decide),
   c8_boundary_amended.2.2.2.2.1 [3, 4] (by decide) (by decide),
   c8_boundary_amended.2.2.2.2.2 [3, 4] (by decide) (by decide)⟩

/-- C9: under 1 ≤ k ≤ n, every index access of every function is in
bounds: the Option-indexed variants (every access through checked
indexing) never take the out-of-bounds branch and return exactly the
total functions' results. -/
theorem c9_in_bounds :
    ∀ k : Nat, 1 ≤ k →
    (∀ s : List Char, k ≤ s.length → maxVowelsChk s k = some (maxVowels s k)) ∧
    (∀ blocks : List Char, k ≤ blocks.length →
      minimumRecolorsChk blocks k = some (minimumRecolors blocks k)) ∧
    (∀ (arr : List Int) (t : Int), k ≤ arr.length →
      numOfSubarraysChk arr k t = some (numOfSubarrays arr k t)) ∧
    (∀ cp : List Int, k ≤ cp.length → maxScoreChk cp k = some (maxScore cp k)) ∧
    (∀ nums : List Int, k ≤ nums.length →
      maximumSubarraySumChk nums k = some (maximumSubarraySum nums k)) ∧
    (∀ nums : List Int, k ≤ nums.length →
      findMaxAverageChk nums k = some (findMaxAverage nums k)) :=
  fun k hk =>
    ⟨fun s _ => maxVowelsChk_eq s k hk,
     fun blocks hkn => minimumRecolorsChk_eq blocks k hk hkn,
     fun arr t _ => numOfSubarraysChk_eq arr k t hk,
     fun cp hkn => maxScoreChk_eq cp k hkn,
     fun nums _ => maximumSubarraySumChk_eq nums k hk,
     fun nums _ => findMaxAverageChk_eq nums k hk⟩

/-- C9 witness at concrete inputs. -/
theorem c9_in_bounds_witness :
    maxVowelsChk ('a' :: 'b' :: []) 2 = some (maxVowels ('a' :: 'b' :: []) 2) ∧
    minimumRecolorsChk ('W' :: 'B' :: []) 2 =
      some (minimumRecolors ('W' :: 'B' :: []) 2) ∧
    numOfSubarraysChk [5, 6] 2 3 = some (numOfSubarrays [5, 6] 2 3) ∧
    maxScoreChk [5, 6] 2 = some (maxScore [5, 6] 2) ∧
    maximumSubarraySumChk [5, 6] 2 = some (maximumSubarraySum [5, 6] 2) ∧
    findMaxAverageChk [5, 6] 2 = some (findMaxAverage [5, 6] 2) :=
  ⟨(c9_in_bounds 2 (by decide)).1 _ (by decide),
   (c9_in_bounds 2 (by decide)).2.1 _ (by decide),
   (c9_in_bounds 2 (by decide)).2.2.1 _ 3 (by decide),
   (c9_in_bounds 2 (by decide)).2.2.2.1 _ (by decide),
   (c9_in_bounds 2 (by decide)).2.2.2.2.1 _ (by decide),
   (c9_in_bounds 2 (by decide)).2.2.2.2.2 _ (by decide)⟩

/-- C10: `maximumSubarraySum` never returns a negative value, and it
returns 0 whenever every all-distinct window has negative sum (vacuously
including the case of no such window). -/
theorem c10_maximumSubarraySum_nonneg :
    ∀ (nums : List Int) (k : Nat), 1 ≤ k → k ≤ nums.length →
      0 ≤ maximumSubarraySum nums k ∧
      ((∀ x ∈ qualifyingSums nums k, x < 0) → maximumSubarraySum nums k = 0) := by
  intro nums k hk hkn
  rw [maximumSubarraySum_eq_brute nums k hk]
  constructor
  · exact le_max_left 0 _
  · intro hneg
    rw [bruteDistinctMax]
    cases hq : qualifyingSums nums k with
    | nil => simp
    | cons x xs =>
      have hmem : listMax (x :: xs) ∈ qualifyingSums nums k := by
        rw [hq]
        exact listMax_mem (x :: xs) (by simp)
      have hlt := hneg _ hmem
      rw [max_eq_left (le_of_lt hlt)]

/-- C10 witness at a concrete input. -/
theorem c10_maximumSubarraySum_nonneg_witness :
    0 ≤ maximumSubarraySum [-1] 1 ∧
    ((∀ x ∈ qualifyingSums [-1] 1, x < 0) → maximumSubarraySum [-1] 1 = 0) :=
  c10_maximumSubarraySum_nonneg [-1] 1 (by decide) (by decide)

end SlidingWindow
